import Mathlib

/-!
# Robin Hood hashtable: shallow embedding and verification

Shallow embedding of the Robin-Hood hashing based hashtable of this repository
(the revision in `src/unnamed/part_002`, the one with a one-past-the-end
sentinel bucket, `clear`, `erase` and `ufind`).  Values are modelled as `Nat`
(the demonstration program instantiates `T = int`), the hash function is an
explicit parameter `hasher : Nat → Nat`, and equality is structural equality,
so the consistency contract `equal a b → hash a = hash b` holds definitionally.

The `uint8_t _dib` counter ("distance to initial bucket") is modelled as a
`Nat` whose increments wrap modulo 256 (`bump8`), exactly as the C++ `dib++`
and `_dib + 1` do.  The unstructured `goto`/`while` loops of the source are
modelled as fuel-indexed recursive functions returning `Option`: `none` means
the fuel ran out, and termination facts are stated as "this much fuel
suffices".
-/

set_option maxHeartbeats 1000000

namespace RobinHood

/-- `Bucket::EMPTY` (dib value 0 marks an empty bucket). -/
def EMPTY : Nat := 0

/-- `Bucket::FILLED` (dib floor 1; a bucket is filled iff its dib is nonzero). -/
def FILLED : Nat := 1

/-- One entry of the hashtable: `_dib` (distance to initial bucket, a
`uint8_t` in the source) and `_value` (the stored value). -/
structure Bucket where
  dib : Nat
  value : Nat
deriving DecidableEq, Repr

/-- `Bucket::isEmpty`. -/
def Bucket.isEmpty (b : Bucket) : Prop := b.dib = EMPTY

/-- `Bucket::isFilled`. -/
def Bucket.isFilled (b : Bucket) : Prop := b.dib ≠ EMPTY

instance (b : Bucket) : Decidable b.isEmpty := by
  unfold Bucket.isEmpty; infer_instance

instance (b : Bucket) : Decidable b.isFilled := by
  unfold Bucket.isFilled; infer_instance

/-- `uint8_t` increment: `dib++` / `_dib + 1` wraps modulo 256. -/
def bump8 (d : Nat) : Nat := (d + 1) % 256

/-- The table state: `_buckets` (capacity + 1 entries, the last one being the
always-FILLED sentinel), `_capacity`, `_size`. -/
structure Table where
  buckets : List Bucket
  capacity : Nat
  size : Nat
deriving DecidableEq, Repr

/-- `INIT_SIZE = 16` (number of buckets to start with). -/
def INIT_SIZE : Nat := 16

/-- `LOAD_FACTOR = 2` (load factor expressed as `1 - 1 / 2^LOAD_FACTOR`). -/
def LOAD_FACTOR : Nat := 2

/-- Read bucket `i` (pointer dereference `_buckets[i]`; out-of-range reads
return a default, they do not occur on in-range indices). -/
def bucketAt : List Bucket → Nat → Bucket
  | [], _ => ⟨EMPTY, 0⟩
  | b :: _, 0 => b
  | _ :: rest, i + 1 => bucketAt rest i

/-- Write bucket `i` (assignment through `_buckets[i]`). -/
def setBucket : List Bucket → Nat → Bucket → List Bucket
  | [], _, _ => []
  | _ :: rest, 0, b => b :: rest
  | a :: rest, i + 1, b => a :: setBucket rest i b

/-- `init(capacity)`: `capacity` default-constructed (EMPTY) buckets followed
by the sentinel bucket at index `capacity`, marked FILLED
(`_buckets[_capacity].markFilled()`).  Note that `init` does not touch
`_size`. -/
def mkBuckets : Nat → List Bucket
  | 0 => [⟨FILLED, 0⟩]
  | n + 1 => ⟨EMPTY, 0⟩ :: mkBuckets n

/-- The default-constructed table: `_size(0)` then `init(INIT_SIZE)`. -/
def emptyTable : Table := ⟨mkBuckets INIT_SIZE, INIT_SIZE, 0⟩

/-- `clear()`: `free(); init(INIT_SIZE);` — capacity and buckets are reset,
and `_size` is left exactly as it was, because neither `free` nor `init`
mentions `_size`. -/
def clear (t : Table) : Table :=
  { t with buckets := mkBuckets INIT_SIZE, capacity := INIT_SIZE }

/-- The skip loop of `insert`:
`while (dib < head->_dib) { dib++; head = (++head == _buckets + _capacity) ? _buckets : head; }`.
Returns the final `(dib, index)` pair, `none` if the fuel runs out. -/
def probeLoop (bs : List Bucket) (cap : Nat) : Nat → Nat → Nat → Option (Nat × Nat)
  | 0, _, _ => none
  | fuel + 1, dib, idx =>
    if dib < (bucketAt bs idx).dib then
      probeLoop bs cap fuel (bump8 dib) ((idx + 1) % cap)
    else
      some (dib, idx)

/-- The `goto loop` body of `insert` (part_002), without the size/rehash
bookkeeping that follows a placement: probe, then either detect a duplicate
(`dib == head->_dib && equalTo(tCopy, head->_value)`, a no-op), place into an
empty bucket, or evict the resident (Robin Hood swap, the resident continues
with `_dib + 1`).  Returns the bucket array and whether a placement happened. -/
def insertLoop (hasher : Nat → Nat) : Nat → List Bucket → Nat → Nat → Nat →
    Option (List Bucket × Bool)
  | 0, _, _, _, _ => none
  | fuel + 1, bs, cap, t, dib =>
    match probeLoop bs cap (fuel + 1) dib ((hasher t + dib) % cap) with
    | none => none
    | some (dib', idx) =>
      let head := bucketAt bs idx
      if dib' = head.dib ∧ t = head.value then
        some (bs, false)
      else if head.isEmpty then
        some (setBucket bs idx ⟨dib', t⟩, true)
      else
        insertLoop hasher fuel (setBucket bs idx ⟨dib', t⟩) cap head.value (bump8 head.dib)

/-- The shared probe loop of `ufind` and `erase`:
`while (dib < prec->_dib || (dib == prec->_dib && !_equalTo(t, prec->_value)))`. -/
def seekLoop (bs : List Bucket) (cap : Nat) (t : Nat) : Nat → Nat → Nat → Option (Nat × Nat)
  | 0, _, _ => none
  | fuel + 1, dib, idx =>
    let prec := bucketAt bs idx
    if dib < prec.dib ∨ (dib = prec.dib ∧ t ≠ prec.value) then
      seekLoop bs cap t fuel (bump8 dib) ((idx + 1) % cap)
    else
      some (dib, idx)

/-- `ufind`: seek, then report the bucket index if
`dib == prec->_dib && _equalTo(t, prec->_value)`, and the end iterator
(`none`) otherwise.  The outer `none` means the fuel ran out. -/
def ufind (hasher : Nat → Nat) (fuel : Nat) (tbl : Table) (t : Nat) : Option (Option Nat) :=
  match seekLoop tbl.buckets tbl.capacity t fuel FILLED
      ((hasher t + FILLED) % tbl.capacity) with
  | none => none
  | some (dib, idx) =>
    let prec := bucketAt tbl.buckets idx
    some (if dib = prec.dib ∧ t = prec.value then some idx else none)

/-- The backward-shift loop of `erase`:
`while (succ->_dib > Bucket<T>::FILLED) { prec->_dib = succ->_dib - 1; prec->_value = succ->_value; ... }`
followed by `prec->markEmpty()` (which leaves the moved-from value in
place). -/
def shiftLoop (cap : Nat) : Nat → List Bucket → Nat → Nat → Option (List Bucket)
  | 0, _, _, _ => none
  | fuel + 1, bs, precIdx, succIdx =>
    let succ := bucketAt bs succIdx
    if FILLED < succ.dib then
      shiftLoop cap fuel (setBucket bs precIdx ⟨succ.dib - 1, succ.value⟩) succIdx
        ((succIdx + 1) % cap)
    else
      some (setBucket bs precIdx ⟨EMPTY, (bucketAt bs precIdx).value⟩)

/-- `erase` (part_002): seek exactly as `ufind` does; if the stop bucket has
the probed dib (`if (dib == prec->_dib)`), backward-shift the following run
one slot left, empty the last shifted bucket and decrement `_size`; otherwise
do nothing. -/
def erase (hasher : Nat → Nat) (fuel : Nat) (tbl : Table) (t : Nat) : Option Table :=
  match seekLoop tbl.buckets tbl.capacity t fuel FILLED
      ((hasher t + FILLED) % tbl.capacity) with
  | none => none
  | some (dib, precIdx) =>
    if dib = (bucketAt tbl.buckets precIdx).dib then
      match shiftLoop tbl.capacity fuel tbl.buckets precIdx
          ((precIdx + 1) % tbl.capacity) with
      | none => none
      | some bs' => some { tbl with buckets := bs', size := tbl.size - 1 }
    else
      some tbl

/-- The three mutually recursive routines of the source (`insert`, `rehash`
and the reinsertion loop inside `rehash`) as one call descriptor, so that the
whole family can be given as a single fuel-indexed structural recursion that
the kernel can evaluate. -/
inductive Call where
  | ins (tbl : Table) (t : Nat)
  | reh (oldBs : List Bucket) (oldCap newCap : Nat)
  | reins (oldBs : List Bucket) (oldCap i : Nat) (tbl : Table)

/-- Interpreter of `Call`:
`.ins` is `insert` (part_002, both overloads have the same logic): run the
displacement loop starting at `dib = FILLED`; on a placement do `++_size`
and, if `(_size << LOAD_FACTOR) >= (_capacity << LOAD_FACTOR) - _capacity`,
rehash into a doubled array; on a duplicate leave everything unchanged.
`.reh` is `rehash(oldCap, newCap)`: fresh `newCap + 1` buckets with a FILLED
sentinel, `_size = 0`, then every filled bucket of the old array (indices
`0 ≤ i < oldCap`, in slot order) is reinserted with the ordinary `insert` —
`.reins` is that reinsertion loop. -/
def run (hasher : Nat → Nat) : Nat → Call → Option Table
  | 0, _ => none
  | fuel + 1, .ins tbl t =>
    match insertLoop hasher (fuel + 1) tbl.buckets tbl.capacity t FILLED with
    | none => none
    | some (bs', placed) =>
      if placed then
        let sz' := tbl.size + 1
        if (tbl.capacity <<< LOAD_FACTOR) - tbl.capacity ≤ sz' <<< LOAD_FACTOR then
          run hasher fuel (.reh bs' tbl.capacity (tbl.capacity <<< 1))
        else
          some ⟨bs', tbl.capacity, sz'⟩
      else
        some ⟨bs', tbl.capacity, tbl.size⟩
  | fuel + 1, .reh oldBs oldCap newCap =>
    run hasher fuel (.reins oldBs oldCap 0 ⟨mkBuckets newCap, newCap, 0⟩)
  | fuel + 1, .reins oldBs oldCap i tbl =>
    if i < oldCap then
      if (bucketAt oldBs i).isFilled then
        match run hasher fuel (.ins tbl (bucketAt oldBs i).value) with
        | none => none
        | some tbl' => run hasher fuel (.reins oldBs oldCap (i + 1) tbl')
      else
        run hasher fuel (.reins oldBs oldCap (i + 1) tbl)
    else
      some tbl

/-- `insert` (part_002). -/
def insert (hasher : Nat → Nat) (fuel : Nat) (tbl : Table) (t : Nat) : Option Table :=
  run hasher fuel (.ins tbl t)

/-- `rehash(oldCap, newCap)` (part_002). -/
def rehash (hasher : Nat → Nat) (fuel : Nat) (oldBs : List Bucket) (oldCap newCap : Nat) :
    Option Table :=
  run hasher fuel (.reh oldBs oldCap newCap)

/-- The reinsertion loop of `rehash`, from old index `i`. -/
def reinsertFrom (hasher : Nat → Nat) (fuel : Nat) (oldBs : List Bucket) (oldCap i : Nat)
    (tbl : Table) : Option Table :=
  run hasher fuel (.reins oldBs oldCap i tbl)

/-- `Iterator::operator++` (part_002): `do { _bucketPtr++; } while (!_bucketPtr->isFilled());`
— no bounds check, the walk is stopped by the first filled bucket (at the
latest, the sentinel). -/
def itNext (bs : List Bucket) : Nat → Nat → Option Nat
  | 0, _ => none
  | fuel + 1, i =>
    if (bucketAt bs (i + 1)).isFilled then some (i + 1) else itNext bs fuel (i + 1)

/-- `ubegin`: the first bucket if it is filled, otherwise `++` from it. -/
def ubegin (tbl : Table) (fuel : Nat) : Option Nat :=
  if (bucketAt tbl.buckets 0).isFilled then some 0 else itNext tbl.buckets fuel 0

/-- `uend`: the iterator at `_buckets + _capacity` (the sentinel). -/
def uend (tbl : Table) : Nat := tbl.capacity

/-- Number of filled buckets holding value `v` among the first `n` slots. -/
def liveCount (bs : List Bucket) (v : Nat) : Nat → Nat
  | 0 => 0
  | n + 1 =>
    liveCount bs v n +
      (if (bucketAt bs n).isFilled ∧ (bucketAt bs n).value = v then 1 else 0)

/-- Number of filled buckets among the first `n` slots. -/
def filledCount (bs : List Bucket) : Nat → Nat
  | 0 => 0
  | n + 1 => filledCount bs n + (if (bucketAt bs n).isFilled then 1 else 0)

/-- The values stored in the first `n` slots, in slot order. -/
def liveVals (bs : List Bucket) : Nat → List Nat
  | 0 => []
  | n + 1 => liveVals bs n ++ (if (bucketAt bs n).isFilled then [(bucketAt bs n).value] else [])

/-- Membership: some filled bucket of the table holds `v`. -/
def hasMember (tbl : Table) (v : Nat) : Prop :=
  liveCount tbl.buckets v tbl.capacity ≠ 0

instance (tbl : Table) (v : Nat) : Decidable (hasMember tbl v) := by
  unfold hasMember; infer_instance

instance (p q : Prop) [dp : Decidable p] [dq : Decidable q] : Decidable (p → q) :=
  match dp with
  | isFalse hp => isTrue fun hp' => absurd hp' hp
  | isTrue hp =>
    match dq with
    | isTrue hq => isTrue fun _ => hq
    | isFalse hq => isFalse fun f => hq (f hp)

/-- The table invariants, as maintained by the algorithm on reachable states:
well-formed length, a positive capacity, the FILLED sentinel at index
`capacity`, and for every filled bucket `i` holding `(d, v)`:
its dib is capped by the capacity, it sits on its own probe path
(`i = (hasher v + d) % capacity`, the Robin Hood contiguity/placement fact),
and every earlier slot of that probe path holds a dib at least as large as
its probe distance (invariants I1/I2); finally stored values are pairwise
distinct (invariant I3). -/
def Inv (hasher : Nat → Nat) (tbl : Table) : Prop :=
  tbl.buckets.length = tbl.capacity + 1 ∧
  0 < tbl.capacity ∧
  (bucketAt tbl.buckets tbl.capacity).isFilled ∧
  (∀ i, i < tbl.capacity → (bucketAt tbl.buckets i).isFilled →
    (bucketAt tbl.buckets i).dib ≤ tbl.capacity ∧
    i = (hasher (bucketAt tbl.buckets i).value + (bucketAt tbl.buckets i).dib) %
        tbl.capacity ∧
    (∀ d, d < (bucketAt tbl.buckets i).dib + 1 → 1 ≤ d →
      d ≤ (bucketAt tbl.buckets
        ((hasher (bucketAt tbl.buckets i).value + d) % tbl.capacity)).dib)) ∧
  (∀ i, i < tbl.capacity → ∀ j, j < i →
    (bucketAt tbl.buckets i).isFilled → (bucketAt tbl.buckets j).isFilled →
    (bucketAt tbl.buckets i).value ≠ (bucketAt tbl.buckets j).value)

instance (hasher : Nat → Nat) (tbl : Table) : Decidable (Inv hasher tbl) := by
  unfold Inv; infer_instance

/-- The identity hash, the behaviour of `std::hash<int>` on the non-negative
ints used by the demonstration program. -/
def idHasher : Nat → Nat := fun n => n

/-- Two colliding values under the identity hash and the initial capacity 16:
insert 0, then 16.  Their home bucket is the same (`0 % 16 = 16 % 16`). -/
def dupPre : Option Table :=
  (insert idHasher 100 emptyTable 0).bind fun t => insert idHasher 100 t 16

/-- ... and then insert 0 a second time, although it is already stored. -/
def dupScenario : Option Table :=
  dupPre.bind fun t => insert idHasher 100 t 0

/-- An old bucket array holding 0 then 16 in slot order (plus sentinel). -/
def oldA : List Bucket := [⟨1, 0⟩, ⟨1, 16⟩, ⟨1, 0⟩]

/-- The same logical contents in the opposite slot order. -/
def oldB : List Bucket := [⟨1, 16⟩, ⟨1, 0⟩, ⟨1, 0⟩]

/-- The return type of `erase` in the source: `void erase(const T& t)` —
the operation reports nothing to its caller. -/
abbrev EraseReturn : Type := Unit

/-- A small reachable table used to instantiate the invariant-conditioned
theorems: capacity 16, one stored value 3 sitting in its home-path bucket 4
(`(3 + 1) % 16`) with dib 1, the sentinel at index 16. -/
def wtbl : Table :=
  ⟨[⟨0, 0⟩, ⟨0, 0⟩, ⟨0, 0⟩, ⟨0, 0⟩, ⟨1, 3⟩, ⟨0, 0⟩, ⟨0, 0⟩, ⟨0, 0⟩, ⟨0, 0⟩,
    ⟨0, 0⟩, ⟨0, 0⟩, ⟨0, 0⟩, ⟨0, 0⟩, ⟨0, 0⟩, ⟨0, 0⟩, ⟨0, 0⟩, ⟨1, 0⟩], 16, 1⟩

/-!
## Theorems
-/

/-- `seekLoop` only answers at an index where its loop condition is false. -/
theorem seekLoop_stop {bs : List Bucket} {cap t : Nat} :
    ∀ {fuel dib idx d i}, seekLoop bs cap t fuel dib idx = some (d, i) →
      ¬(d < (bucketAt bs i).dib ∨ (d = (bucketAt bs i).dib ∧ t ≠ (bucketAt bs i).value)) := by
  intro fuel
  induction fuel with
  | zero => intro _ _ _ _ h; simp [seekLoop] at h
  | succ fuel ih =>
    intro dib idx d i h
    rw [seekLoop] at h
    split at h
    · exact ih h
    · next hc => cases h; exact hc

theorem length_setBucket (bs : List Bucket) (i : Nat) (b : Bucket) :
    (setBucket bs i b).length = bs.length := by
  induction bs generalizing i with
  | nil => rfl
  | cons a rest ih =>
    cases i with
    | zero => rfl
    | succ i => simp [setBucket, ih]

theorem bucketAt_setBucket_self {bs : List Bucket} {i : Nat} (b : Bucket)
    (h : i < bs.length) : bucketAt (setBucket bs i b) i = b := by
  induction bs generalizing i with
  | nil => simp at h
  | cons a rest ih =>
    cases i with
    | zero => rfl
    | succ i => exact ih (by simpa using h)

theorem bucketAt_setBucket_ne {bs : List Bucket} {i j : Nat} (b : Bucket)
    (h : j ≠ i) : bucketAt (setBucket bs i b) j = bucketAt bs j := by
  induction bs generalizing i j with
  | nil => rfl
  | cons a rest ih =>
    cases i with
    | zero =>
      cases j with
      | zero => exact absurd rfl h
      | succ j => rfl
    | succ i =>
      cases j with
      | zero => rfl
      | succ j => exact ih (fun hh => h (by omega))

theorem liveCount_set_of_le {bs : List Bucket} {i : Nat} (b : Bucket) {n : Nat}
    (h : n ≤ i) (v : Nat) :
    liveCount (setBucket bs i b) v n = liveCount bs v n := by
  induction n with
  | zero => rfl
  | succ n ih =>
    rw [liveCount, liveCount, bucketAt_setBucket_ne b (by omega), ih (by omega)]

theorem liveCount_set {bs : List Bucket} {i : Nat} (b : Bucket) {n : Nat}
    (hi : i < n) (hlen : i < bs.length) (v : Nat) :
    liveCount (setBucket bs i b) v n +
      (if (bucketAt bs i).isFilled ∧ (bucketAt bs i).value = v then 1 else 0) =
    liveCount bs v n + (if b.isFilled ∧ b.value = v then 1 else 0) := by
  induction n with
  | zero => omega
  | succ n ih =>
    rcases Nat.lt_or_ge i n with hin | hin
    · rw [liveCount, liveCount, bucketAt_setBucket_ne b (by omega)]
      have := ih hin
      omega
    · have hieq : i = n := by omega
      subst hieq
      rw [liveCount, liveCount, bucketAt_setBucket_self b hlen,
        liveCount_set_of_le b (Nat.le_refl i) v]
      omega

theorem liveCount_pos_of_slot {bs : List Bucket} {i n v : Nat} (hin : i < n)
    (hf : (bucketAt bs i).isFilled) (hv : (bucketAt bs i).value = v) :
    liveCount bs v n ≠ 0 := by
  induction n with
  | zero => omega
  | succ n ih =>
    rw [liveCount]
    rcases Nat.lt_or_ge i n with hin' | hin'
    · have := ih hin'
      omega
    · have hieq : i = n := by omega
      subst hieq
      rw [if_pos ⟨hf, hv⟩]
      omega

theorem slot_of_liveCount_pos {bs : List Bucket} {n v : Nat}
    (h : liveCount bs v n ≠ 0) :
    ∃ i, i < n ∧ (bucketAt bs i).isFilled ∧ (bucketAt bs i).value = v := by
  induction n with
  | zero => exact absurd rfl h
  | succ n ih =>
    rw [liveCount] at h
    by_cases hc : (bucketAt bs n).isFilled ∧ (bucketAt bs n).value = v
    · exact ⟨n, by omega, hc⟩
    · rw [if_neg hc] at h
      obtain ⟨i, hi, hrest⟩ := ih (by omega)
      exact ⟨i, by omega, hrest⟩

theorem liveCount_le_one_of_pairwise {bs : List Bucket} {n : Nat}
    (hu : ∀ i, i < n → ∀ j, j < i → (bucketAt bs i).isFilled →
      (bucketAt bs j).isFilled → (bucketAt bs i).value ≠ (bucketAt bs j).value)
    (v : Nat) : liveCount bs v n ≤ 1 := by
  induction n with
  | zero => exact Nat.zero_le 1
  | succ n ih =>
    rw [liveCount]
    have hn := ih (fun i hi j hj => hu i (by omega) j hj)
    by_cases hc : (bucketAt bs n).isFilled ∧ (bucketAt bs n).value = v
    · rw [if_pos hc]
      rcases Nat.eq_zero_or_pos (liveCount bs v n) with h0 | hpos
      · omega
      · have hne : liveCount bs v n ≠ 0 := by omega
        obtain ⟨j, hj, hjf, hjv⟩ := slot_of_liveCount_pos hne
        exact absurd (hjv.trans hc.2.symm) (hu n (by omega) j hj hc.1 hjf).symm
    · rw [if_neg hc]
      omega

theorem add_mod_ne {n x k j : Nat} (hn : 0 < n) (hkj : k < j) (hjn : j - k < n) :
    (x + k) % n ≠ (x + j) % n := by
  intro h
  have hxj : (x + j) % n = ((x + k) % n + (j - k)) % n := by
    rw [Nat.mod_add_mod]
    congr 1
    omega
  rw [hxj] at h
  have hlt : (x + k) % n < n := Nat.mod_lt _ hn
  rcases Nat.lt_or_ge ((x + k) % n + (j - k)) n with hsm | hsm
  · rw [Nat.mod_eq_of_lt hsm] at h
    omega
  · have hlt2 : (x + k) % n + (j - k) - n < n := by omega
    rw [Nat.mod_eq_sub_mod hsm, Nat.mod_eq_of_lt hlt2] at h
    omega

theorem mod_succ_step {n a k : Nat} :
    ((a + k) % n + 1) % n = (a + (k + 1)) % n := by
  rw [Nat.mod_add_mod, Nat.add_assoc]

theorem indicator_and_filled {b : Bucket} (hf : b.isFilled) (v : Nat) :
    (if b.isFilled ∧ b.value = v then (1 : Nat) else 0) =
      if v = b.value then 1 else 0 := by
  by_cases hv : b.value = v
  · rw [if_pos ⟨hf, hv⟩, if_pos hv.symm]
  · rw [if_neg (fun hc => hv hc.2), if_neg (fun hc => hv hc.symm)]

theorem indicator_and_empty {b : Bucket} (hf : ¬b.isFilled) (v : Nat) :
    (if b.isFilled ∧ b.value = v then (1 : Nat) else 0) = 0 :=
  if_neg (fun hc => hf hc.1)

theorem bump8_no_wrap {d : Nat} (h : d ≤ 254) : bump8 d = d + 1 := by
  unfold bump8
  exact Nat.mod_eq_of_lt (by omega)

theorem EMPTY_eq : EMPTY = 0 := rfl

theorem FILLED_eq : FILLED = 1 := rfl

/-- The skip loop of `insert` stops at or before the first empty bucket on
the walk: it answers `(dib + k, (idx + k) % cap)` for some `k` at most the
offset of a known empty bucket, where it no longer sees a strictly larger
resident dib, having skipped only buckets with strictly larger dib. -/
theorem probeLoop_spec {bs : List Bucket} {cap : Nat} (hpos : 0 < cap)
    (hcap : cap ≤ 254) (hdibB : ∀ i, i < cap → (bucketAt bs i).dib ≤ cap) :
    ∀ j fuel dib idx, idx < cap →
      (bucketAt bs ((idx + j) % cap)).dib = EMPTY →
      j + 1 ≤ fuel →
      ∃ k, k ≤ j ∧ probeLoop bs cap fuel dib idx = some (dib + k, (idx + k) % cap) ∧
        ¬(dib + k < (bucketAt bs ((idx + k) % cap)).dib) ∧
        (∀ e, e < k → dib + e < (bucketAt bs ((idx + e) % cap)).dib) := by
  intro j
  induction j with
  | zero =>
    intro fuel dib idx hidx hE hfuel
    obtain ⟨f, rfl⟩ : ∃ f, fuel = f + 1 := ⟨fuel - 1, by omega⟩
    rw [Nat.add_zero, Nat.mod_eq_of_lt hidx] at hE
    refine ⟨0, Nat.le_refl 0, ?_, ?_, fun e he => by omega⟩
    · rw [probeLoop, if_neg (by rw [hE, EMPTY_eq]; omega), Nat.add_zero, Nat.add_zero,
        Nat.mod_eq_of_lt hidx]
    · rw [Nat.add_zero, Nat.add_zero, Nat.mod_eq_of_lt hidx, hE, EMPTY_eq]
      omega
  | succ j ihj =>
    intro fuel dib idx hidx hE hfuel
    obtain ⟨f, rfl⟩ : ∃ f, fuel = f + 1 := ⟨fuel - 1, by omega⟩
    by_cases hskip : dib < (bucketAt bs idx).dib
    · have hdle : dib ≤ 254 := by
        have := hdibB idx hidx
        omega
      have hidxs : ∀ e, ((idx + 1) % cap + e) % cap = (idx + (e + 1)) % cap := by
        intro e
        rw [Nat.mod_add_mod]
        congr 1
        omega
      obtain ⟨k, hkj, hrun, hstop, hsk⟩ :=
        ihj f (bump8 dib) ((idx + 1) % cap) (Nat.mod_lt _ hpos)
          (by rw [hidxs j]; exact hE) (by omega)
      rw [bump8_no_wrap hdle] at hrun hstop hsk
      refine ⟨k + 1, by omega, ?_, ?_, ?_⟩
      · rw [probeLoop, if_pos hskip, bump8_no_wrap hdle]
        rw [hrun, hidxs k]
        congr 2
        omega
      · rw [← hidxs k]
        have harith : dib + (k + 1) = dib + 1 + k := by omega
        rw [harith]
        exact hstop
      · intro e he
        cases e with
        | zero =>
          rw [Nat.add_zero, Nat.add_zero, Nat.mod_eq_of_lt hidx]
          exact hskip
        | succ e =>
          have hrec := hsk e (by omega)
          rw [hidxs e] at hrec
          have harith : dib + 1 + e = dib + (e + 1) := by omega
          rw [harith] at hrec
          exact hrec
    · refine ⟨0, by omega, ?_, ?_, fun e he => by omega⟩
      · rw [probeLoop, if_neg hskip, Nat.add_zero, Nat.add_zero, Nat.mod_eq_of_lt hidx]
      · rw [Nat.add_zero, Nat.add_zero, Nat.mod_eq_of_lt hidx]
        exact hskip

theorem filledCount_set_of_le {bs : List Bucket} {i : Nat} (b : Bucket) {n : Nat}
    (h : n ≤ i) : filledCount (setBucket bs i b) n = filledCount bs n := by
  induction n with
  | zero => rfl
  | succ n ih =>
    rw [filledCount, filledCount, bucketAt_setBucket_ne b (by omega), ih (by omega)]

theorem filledCount_set {bs : List Bucket} {i : Nat} (b : Bucket) {n : Nat}
    (hi : i < n) (hlen : i < bs.length) :
    filledCount (setBucket bs i b) n +
      (if (bucketAt bs i).isFilled then 1 else 0) =
    filledCount bs n + (if b.isFilled then 1 else 0) := by
  induction n with
  | zero => omega
  | succ n ih =>
    rcases Nat.lt_or_ge i n with hin | hin
    · rw [filledCount, filledCount, bucketAt_setBucket_ne b (by omega)]
      have := ih hin
      omega
    · have hieq : i = n := by omega
      subst hieq
      rw [filledCount, filledCount, bucketAt_setBucket_self b hlen,
        filledCount_set_of_le b (Nat.le_refl i)]
      omega

/-- The Robin Hood displacement loop, analysed under the placement
consistency invariant (every filled bucket sits at `(hash + dib) % cap`)
when an empty bucket lies within `m` steps of the probe start: the loop
succeeds, preserves lengths, placement consistency, the dib cap and the
sentinel, and its effect on the stored multiset is: the inserted value is
added when it reports a placement, and when it reports a duplicate some
still-stored value `tf` was dropped in its favour (`tf = t` when the
duplicate was the probed value itself). -/
theorem insertLoop_main {hasher : Nat → Nat} {cap : Nat}
    (hpos : 0 < cap) (hcap : cap ≤ 254) :
    ∀ fuel m bs t dib,
      bs.length = cap + 1 →
      (∀ i, i < cap → (bucketAt bs i).isFilled →
        i = (hasher (bucketAt bs i).value + (bucketAt bs i).dib) % cap) →
      (∀ i, i < cap → (bucketAt bs i).dib ≤ cap) →
      (∀ i, i < cap → (bucketAt bs i).isFilled →
        ∀ d, 1 ≤ d → d ≤ (bucketAt bs i).dib →
          d ≤ (bucketAt bs ((hasher (bucketAt bs i).value + d) % cap)).dib) →
      (∀ e, 1 ≤ e → e < dib → e ≤ (bucketAt bs ((hasher t + e) % cap)).dib) →
      1 ≤ dib → dib + m ≤ cap → m < cap →
      (∃ j, j ≤ m ∧ (bucketAt bs (((hasher t + dib) % cap + j) % cap)).dib = EMPTY) →
      m + 2 ≤ fuel →
      ∃ bs' placed, insertLoop hasher fuel bs cap t dib = some (bs', placed) ∧
        bs'.length = cap + 1 ∧
        (∀ i, i < cap → (bucketAt bs' i).isFilled →
          i = (hasher (bucketAt bs' i).value + (bucketAt bs' i).dib) % cap) ∧
        (∀ i, i < cap → (bucketAt bs' i).dib ≤ cap) ∧
        bucketAt bs' cap = bucketAt bs cap ∧
        (∀ i, i < cap → (bucketAt bs' i).isFilled →
          ∀ d, 1 ≤ d → d ≤ (bucketAt bs' i).dib →
            d ≤ (bucketAt bs' ((hasher (bucketAt bs' i).value + d) % cap)).dib) ∧
        filledCount bs' cap = filledCount bs cap + (if placed = true then 1 else 0) ∧
        (placed = true → ∀ w, liveCount bs' w cap =
          liveCount bs w cap + if w = t then 1 else 0) ∧
        (placed = false → ∃ tf, liveCount bs' tf cap ≠ 0 ∧
          ∀ w, liveCount bs' w cap + (if w = tf then 1 else 0) =
            liveCount bs w cap + if w = t then 1 else 0) := by
  intro fuel
  induction fuel with
  | zero => intro m bs t dib _ _ _ _ _ _ _ _ _ hfuel; omega
  | succ fuel' ih =>
    intro m bs t dib hlen hhomes hdibB hRH hcarry hdib1 hbound hmcap hempty hfuel
    obtain ⟨j, hj, hjE⟩ := hempty
    have hidx0lt : (hasher t + dib) % cap < cap := Nat.mod_lt _ hpos
    obtain ⟨k, hkj, hprobe, hstop, hskip⟩ :=
      probeLoop_spec hpos hcap hdibB j (fuel' + 1) dib ((hasher t + dib) % cap)
        hidx0lt hjE (by omega)
    have hidxklt : ((hasher t + dib) % cap + k) % cap < cap := Nat.mod_lt _ hpos
    have hidxklen : ((hasher t + dib) % cap + k) % cap < bs.length := by omega
    have hidxk_home :
        ((hasher t + dib) % cap + k) % cap = (hasher t + (dib + k)) % cap := by
      rw [Nat.mod_add_mod, Nat.add_assoc]
    have hd'cap : dib + k ≤ cap := by omega
    have hstople : (bucketAt bs (((hasher t + dib) % cap + k) % cap)).dib ≤ dib + k := by
      omega
    -- every strictly earlier slot of the candidate's probe path carries a
    -- dib at least as large as its probe distance
    have hpathnew : ∀ d, 1 ≤ d → d < dib + k →
        d ≤ (bucketAt bs ((hasher t + d) % cap)).dib := by
      intro d hd1 hlt
      rcases Nat.lt_or_ge d dib with hltd | hged
      · exact hcarry d hd1 hltd
      · have hsk := hskip (d - dib) (by omega)
        have hposx : ((hasher t + dib) % cap + (d - dib)) % cap =
            (hasher t + d) % cap := by
          rw [Nat.mod_add_mod]
          congr 1
          omega
        rw [hposx] at hsk
        omega
    -- the Robin Hood order invariant survives writing the candidate into
    -- its probe-stop bucket (used both for a placement and for a swap)
    have hRH2 : ∀ i, i < cap →
        (bucketAt (setBucket bs (((hasher t + dib) % cap + k) % cap)
          ⟨dib + k, t⟩) i).isFilled →
        ∀ d, 1 ≤ d →
          d ≤ (bucketAt (setBucket bs (((hasher t + dib) % cap + k) % cap)
            ⟨dib + k, t⟩) i).dib →
          d ≤ (bucketAt (setBucket bs (((hasher t + dib) % cap + k) % cap)
            ⟨dib + k, t⟩)
            ((hasher (bucketAt (setBucket bs (((hasher t + dib) % cap + k) % cap)
              ⟨dib + k, t⟩) i).value + d) % cap)).dib := by
      intro i hi hfi d hd1 hdle
      by_cases hie : i = ((hasher t + dib) % cap + k) % cap
      · rw [hie, bucketAt_setBucket_self _ hidxklen] at hfi hdle ⊢
        simp only at hdle ⊢
        by_cases hdd : d = dib + k
        · rw [hdd, ← hidxk_home, bucketAt_setBucket_self _ hidxklen]
        · have hlt : d < dib + k := by omega
          have hold := hpathnew d hd1 hlt
          have hne2 : (hasher t + d) % cap ≠ ((hasher t + dib) % cap + k) % cap := by
            rw [hidxk_home]
            exact add_mod_ne hpos hlt (by omega)
          rw [bucketAt_setBucket_ne _ hne2]
          exact hold
      · rw [bucketAt_setBucket_ne _ hie] at hfi hdle ⊢
        by_cases hpe : (hasher (bucketAt bs i).value + d) % cap =
            ((hasher t + dib) % cap + k) % cap
        · rw [hpe, bucketAt_setBucket_self _ hidxklen]
          have hold := hRH i hi hfi d hd1 hdle
          rw [hpe] at hold
          simp only
          omega
        · rw [bucketAt_setBucket_ne _ hpe]
          exact hRH i hi hfi d hd1 hdle
    by_cases hdup :
        dib + k = (bucketAt bs (((hasher t + dib) % cap + k) % cap)).dib ∧
          t = (bucketAt bs (((hasher t + dib) % cap + k) % cap)).value
    · refine ⟨bs, false, ?_, hlen, hhomes, hdibB, rfl, hRH, ?_, ?_, ?_⟩
      · rw [insertLoop, hprobe]
        simp only
        rw [if_pos hdup]
      · simp
      · intro hco
        exact Bool.noConfusion hco
      · intro _
        have hf : (bucketAt bs (((hasher t + dib) % cap + k) % cap)).isFilled := by
          rw [Bucket.isFilled, ← hdup.1, EMPTY_eq]
          omega
        exact ⟨t, liveCount_pos_of_slot hidxklt hf hdup.2.symm, fun w => rfl⟩
    · by_cases hemp : (bucketAt bs (((hasher t + dib) % cap + k) % cap)).isEmpty
      · -- place into the empty bucket
        have hnf : ¬(bucketAt bs (((hasher t + dib) % cap + k) % cap)).isFilled :=
          fun hf => hf hemp
        have hnewf : (Bucket.mk (dib + k) t).isFilled := by
          rw [Bucket.isFilled, EMPTY_eq]
          simp only
          omega
        refine ⟨setBucket bs (((hasher t + dib) % cap + k) % cap) ⟨dib + k, t⟩, true,
          ?_, ?_, ?_, ?_, ?_, hRH2, ?_, ?_, ?_⟩
        · rw [insertLoop, hprobe]
          simp only
          rw [if_neg hdup, if_pos hemp]
        · rw [length_setBucket]
          exact hlen
        · intro i hi hf
          by_cases hne : i = ((hasher t + dib) % cap + k) % cap
          · subst hne
            rw [bucketAt_setBucket_self _ hidxklen]
            exact hidxk_home
          · rw [bucketAt_setBucket_ne _ hne] at hf ⊢
            exact hhomes i hi hf
        · intro i hi
          by_cases hne : i = ((hasher t + dib) % cap + k) % cap
          · subst hne
            rw [bucketAt_setBucket_self _ hidxklen]
            exact hd'cap
          · rw [bucketAt_setBucket_ne _ hne]
            exact hdibB i hi
        · exact bucketAt_setBucket_ne _ (by omega)
        · have hfc := filledCount_set ⟨dib + k, t⟩ hidxklt hidxklen
          rw [if_neg hnf, if_pos hnewf] at hfc
          rw [if_pos rfl]
          omega
        · intro _ w
          have hs := liveCount_set ⟨dib + k, t⟩ hidxklt hidxklen w
          rw [indicator_and_empty hnf] at hs
          rw [indicator_and_filled hnewf] at hs
          simp only at hs
          omega
        · intro hco
          exact Bool.noConfusion hco
      · -- Robin Hood swap, then continue with the evicted resident
        have hf : (bucketAt bs (((hasher t + dib) % cap + k) % cap)).isFilled :=
          fun hE => hemp hE
        have hheadle : (bucketAt bs (((hasher t + dib) % cap + k) % cap)).dib ≤ dib + k := by
          omega
        have hheadcap : (bucketAt bs (((hasher t + dib) % cap + k) % cap)).dib ≤ cap :=
          hdibB _ hidxklt
        have hhead1 : 1 ≤ (bucketAt bs (((hasher t + dib) % cap + k) % cap)).dib := by
          have := hf
          rw [Bucket.isFilled, EMPTY_eq] at this
          omega
        have hbump : bump8 (bucketAt bs (((hasher t + dib) % cap + k) % cap)).dib =
            (bucketAt bs (((hasher t + dib) % cap + k) % cap)).dib + 1 :=
          bump8_no_wrap (by omega)
        have hkltj : k < j := by
          rcases Nat.eq_or_lt_of_le hkj with heq | h
          · exfalso
            rw [heq] at hemp
            exact hemp hjE
          · exact h
        have hnewf : (Bucket.mk (dib + k) t).isFilled := by
          rw [Bucket.isFilled, EMPTY_eq]
          simp only
          omega
        -- facts about the modified array
        have hlen0 : (setBucket bs (((hasher t + dib) % cap + k) % cap)
            ⟨dib + k, t⟩).length = cap + 1 := by
          rw [length_setBucket]
          exact hlen
        have hhomes0 : ∀ i, i < cap →
            (bucketAt (setBucket bs (((hasher t + dib) % cap + k) % cap)
              ⟨dib + k, t⟩) i).isFilled →
            i = (hasher (bucketAt (setBucket bs (((hasher t + dib) % cap + k) % cap)
              ⟨dib + k, t⟩) i).value +
              (bucketAt (setBucket bs (((hasher t + dib) % cap + k) % cap)
                ⟨dib + k, t⟩) i).dib) % cap := by
          intro i hi hfi
          by_cases hne : i = ((hasher t + dib) % cap + k) % cap
          · subst hne
            rw [bucketAt_setBucket_self _ hidxklen]
            exact hidxk_home
          · rw [bucketAt_setBucket_ne _ hne] at hfi ⊢
            exact hhomes i hi hfi
        have hdibB0 : ∀ i, i < cap →
            (bucketAt (setBucket bs (((hasher t + dib) % cap + k) % cap)
              ⟨dib + k, t⟩) i).dib ≤ cap := by
          intro i hi
          by_cases hne : i = ((hasher t + dib) % cap + k) % cap
          · subst hne
            rw [bucketAt_setBucket_self _ hidxklen]
            exact hd'cap
          · rw [bucketAt_setBucket_ne _ hne]
            exact hdibB i hi
        -- the carried path condition for the evicted resident
        have hcarry0 : ∀ e, 1 ≤ e →
            e < (bucketAt bs (((hasher t + dib) % cap + k) % cap)).dib + 1 →
            e ≤ (bucketAt (setBucket bs (((hasher t + dib) % cap + k) % cap)
              ⟨dib + k, t⟩)
              ((hasher (bucketAt bs (((hasher t + dib) % cap + k) % cap)).value + e) %
                cap)).dib := by
          intro e he1 helt
          by_cases hedw : e = (bucketAt bs (((hasher t + dib) % cap + k) % cap)).dib
          · have hp : (hasher (bucketAt bs (((hasher t + dib) % cap + k) % cap)).value +
                e) % cap = ((hasher t + dib) % cap + k) % cap := by
              rw [hedw]
              exact (hhomes _ hidxklt hf).symm
            rw [hp, bucketAt_setBucket_self _ hidxklen]
            simp only
            omega
          · have helt2 : e < (bucketAt bs (((hasher t + dib) % cap + k) % cap)).dib := by
              omega
            have hold := hRH _ hidxklt hf e he1 (by omega)
            have hne2 : (hasher (bucketAt bs (((hasher t + dib) % cap + k) % cap)).value +
                e) % cap ≠ ((hasher t + dib) % cap + k) % cap := by
              have hhome := hhomes _ hidxklt hf
              nth_rewrite 2 [hhome]
              exact add_mod_ne hpos helt2 (by omega)
            rw [bucketAt_setBucket_ne _ hne2]
            exact hold
        -- the probe start of the evicted value is one step further
        have hstart1 :
            (hasher (bucketAt bs (((hasher t + dib) % cap + k) % cap)).value +
              ((bucketAt bs (((hasher t + dib) % cap + k) % cap)).dib + 1)) % cap =
            ((((hasher t + dib) % cap + k) % cap) + 1) % cap := by
          have hhome := hhomes _ hidxklt hf
          rw [← Nat.add_assoc, ← Nat.mod_add_mod, ← hhome]
        -- the known empty bucket survives the overwrite
        have hEne : (((hasher t + dib) % cap) + j) % cap ≠
            (((hasher t + dib) % cap) + k) % cap := by
          have := add_mod_ne (x := (hasher t + dib) % cap) hpos hkltj (by omega)
          exact fun hc => this hc.symm
        have hE0 : (bucketAt (setBucket bs (((hasher t + dib) % cap + k) % cap)
            ⟨dib + k, t⟩) (((hasher t + dib) % cap + j) % cap)).dib = EMPTY := by
          rw [bucketAt_setBucket_ne _ hEne]
          exact hjE
        have hE1 : (bucketAt (setBucket bs (((hasher t + dib) % cap + k) % cap)
            ⟨dib + k, t⟩)
            ((((((hasher t + dib) % cap + k) % cap) + 1) % cap + (j - k - 1)) % cap)).dib =
            EMPTY := by
          have harr : (((((hasher t + dib) % cap + k) % cap) + 1) % cap + (j - k - 1)) % cap =
              (((hasher t + dib) % cap) + j) % cap := by
            rw [Nat.mod_add_mod, Nat.add_assoc, Nat.mod_add_mod]
            congr 1
            omega
          rw [harr]
          exact hE0
        obtain ⟨bs', placed, heq', hlen', hhomes', hdibB', hsent', hRH', hfc', hpT, hpF⟩ :=
          ih (m - k - 1)
            (setBucket bs (((hasher t + dib) % cap + k) % cap) ⟨dib + k, t⟩)
            (bucketAt bs (((hasher t + dib) % cap + k) % cap)).value
            ((bucketAt bs (((hasher t + dib) % cap + k) % cap)).dib + 1)
            hlen0 hhomes0 hdibB0 hRH2 hcarry0 (by omega) (by omega) (by omega)
            ⟨j - k - 1, by omega, by rw [hstart1]; exact hE1⟩ (by omega)
        have hseteq : ∀ w,
            liveCount (setBucket bs (((hasher t + dib) % cap + k) % cap)
              ⟨dib + k, t⟩) w cap +
              (if w = (bucketAt bs (((hasher t + dib) % cap + k) % cap)).value
                then 1 else 0) =
            liveCount bs w cap + if w = t then 1 else 0 := by
          intro w
          have hs := liveCount_set ⟨dib + k, t⟩ hidxklt hidxklen w
          rw [indicator_and_filled hf, indicator_and_filled hnewf] at hs
          simp only at hs
          exact hs
        have hsetfc : filledCount (setBucket bs (((hasher t + dib) % cap + k) % cap)
            ⟨dib + k, t⟩) cap = filledCount bs cap := by
          have hfc := filledCount_set ⟨dib + k, t⟩ hidxklt hidxklen
          rw [if_pos hf, if_pos hnewf] at hfc
          omega
        refine ⟨bs', placed, ?_, hlen', hhomes', hdibB', ?_, hRH', ?_, ?_, ?_⟩
        · rw [insertLoop, hprobe]
          simp only
          rw [if_neg hdup, if_neg hemp, hbump]
          exact heq'
        · rw [hsent']
          exact bucketAt_setBucket_ne _ (by omega)
        · rw [hfc', hsetfc]
        · intro hpl w
          have h1 := hpT hpl w
          have h2 := hseteq w
          by_cases hw1 : w = (bucketAt bs (((hasher t + dib) % cap + k) % cap)).value <;>
            by_cases hw2 : w = t <;>
            simp only [hw1, hw2, if_pos, if_neg, if_true, if_false] at h1 h2 ⊢ <;>
            omega
        · intro hpl
          obtain ⟨tf, htf, hco⟩ := hpF hpl
          refine ⟨tf, htf, ?_⟩
          intro w
          have h1 := hco w
          have h2 := hseteq w
          by_cases hw1 : w = (bucketAt bs (((hasher t + dib) % cap + k) % cap)).value <;>
            by_cases hw2 : w = t <;> by_cases hw3 : w = tf <;>
            simp only [hw1, hw2, hw3, if_pos, if_neg, if_true, if_false] at h1 h2 ⊢ <;>
            omega

/-- Claim C1: size() should equal the number of distinct live values after
every public operation.  The code violates this: with the identity hash and
the initial capacity 16, inserting 0, then 16 (same home bucket), then 0
again stores a second copy of 0 — afterwards `_size` is 3 while only 2
distinct values are live.  (The rehash bookkeeping itself is exact; the
violations come from duplicate inserts and from `clear`, which never resets
`_size`.) -/
theorem claim1_size_counts_copies_not_distinct_values :
    dupScenario.map
        (fun t => (t.size, (liveVals t.buckets t.capacity).dedup.length)) =
      some (3, 2) := by
  decide

/-- Claim C2: `clear()` is `free(); init(INIT_SIZE);` and neither `free` nor
`init` touches `_size`.  After inserting 3 into a fresh table and calling
clear, the capacity is back to INIT_SIZE = 16 and no value is live, but
size() still returns 1. -/
theorem claim2_clear_keeps_stale_size :
    (insert idHasher 100 emptyTable 3).map
        (fun t => ((clear t).size, (clear t).capacity,
          filledCount (clear t).buckets (clear t).capacity)) =
      some (1, 16, 0) := by
  decide

/-- Claim C3 counterexample: `erase` in every revision of the source is
`void erase(const T&)` — it returns nothing, so there is no boolean result
that could be `true` iff the value was removed: the return type `void`
(`Unit`) is not even equinumerous with `Bool`. -/
theorem claim3_erase_return_is_not_bool : ¬ Nonempty (EraseReturn ≃ Bool) := by
  intro ⟨e⟩
  exact Bool.noConfusion
    (e.symm.injective (Subsingleton.elim (e.symm.toFun true) (e.symm.toFun false)))

/-- Claim C3 (amended): `erase` returns no value (it is void in the source);
when the value is not found — `ufind` with the same fuel reports the end
iterator — `erase` performs no mutation at all: the table comes back exactly
as it was. -/
theorem claim3_erase_absent_is_no_op (hasher : Nat → Nat) (fuel : Nat) (tbl : Table)
    (v : Nat) (h : ufind hasher fuel tbl v = some none) :
    erase hasher fuel tbl v = some tbl := by
  unfold ufind at h
  unfold erase
  cases hseek : seekLoop tbl.buckets tbl.capacity v fuel FILLED
      ((hasher v + FILLED) % tbl.capacity) with
  | none => rw [hseek] at h; exact absurd h (by simp)
  | some p =>
    obtain ⟨d, i⟩ := p
    rw [hseek] at h
    simp only [Option.some.injEq] at h
    have hstop := seekLoop_stop hseek
    split at h
    · exact absurd h (by simp)
    · next hne =>
      simp only
      split
      · next hdib =>
        exact absurd ⟨hdib, fun hval => hne ⟨hdib, hval⟩⟩ (fun hc => hstop (Or.inr hc))
      · rfl

/-- Claim C3 witness: erasing the absent value 5 from the fresh table is a
no-op. -/
theorem claim3_witness :
    erase idHasher 20 emptyTable 5 = some emptyTable :=
  claim3_erase_absent_is_no_op idHasher 20 emptyTable 5 (by decide)

/-- Claim C4: insert is claimed idempotent on present values.  It is not:
with the identity hash, after inserting 0 and 16 (same home bucket, the
second insert steals the tie slot), the value 0 is stored and found, yet
inserting 0 again walks past the equal-dib bucket holding 16, never meets
the stored copy of 0 with a matching dib, and places a second copy — size
grows from 2 to 3 and two filled buckets hold 0. -/
theorem claim4_insert_of_present_value_duplicates_it :
    dupPre.map (fun t => (decide (hasMember t 0), t.size)) = some (true, 2) ∧
    dupScenario.map (fun t => (t.size, liveCount t.buckets 0 t.capacity)) =
      some (3, 2) := by
  constructor
  · decide
  · decide

/-- Claim C8 counterexample: rehashing two old arrays that hold the same
logical contents {0, 16} in different slot orders yields tables with the same
size and the same stored values, both satisfying the invariants, but with
different layouts — the final layout depends on the reinsertion order
(equal-displacement ties are taken by the most recently inserted value), so
it is not fully determined by I1–I3 and the contents. -/
theorem claim8_layout_depends_on_reinsertion_order :
    (rehash idHasher 100 oldA 2 4).map (fun t => liveVals t.buckets t.capacity) =
      some [16, 0] ∧
    (rehash idHasher 100 oldB 2 4).map (fun t => liveVals t.buckets t.capacity) =
      some [0, 16] ∧
    (rehash idHasher 100 oldA 2 4).map (fun t => t.size) =
      (rehash idHasher 100 oldB 2 4).map (fun t => t.size) ∧
    (rehash idHasher 100 oldA 2 4).map (fun t => decide (Inv idHasher t)) = some true ∧
    (rehash idHasher 100 oldB 2 4).map (fun t => decide (Inv idHasher t)) = some true ∧
    rehash idHasher 100 oldA 2 4 ≠ rehash idHasher 100 oldB 2 4 := by
  refine ⟨by decide, by decide, by decide, by decide, by decide, by decide⟩

theorem offset_to_index {cap start jj : Nat} (hpos : 0 < cap) (hs : start < cap)
    (hj : jj < cap) : ∃ off, off ≤ cap - 1 ∧ (start + off) % cap = jj := by
  rcases Nat.lt_or_ge jj start with h | h
  · refine ⟨cap + jj - start, by omega, ?_⟩
    have harith : start + (cap + jj - start) = cap + jj := by omega
    rw [harith, Nat.add_mod_left, Nat.mod_eq_of_lt hj]
  · refine ⟨jj - start, by omega, ?_⟩
    have harith : start + (jj - start) = jj := by omega
    rw [harith, Nat.mod_eq_of_lt hj]

/-- Claim C7: on every table state satisfying the invariants that still has
an empty bucket (the load-factor precondition), the displacement/swap loop of
`insert` terminates — `capacity + 2` fuel suffices, because the probe start
advances one slot per iteration and the 8-bit displacement counter never
wraps while the capacity is below the counter range. -/
theorem claim7_insert_loop_terminates (hasher : Nat → Nat) (tbl : Table) (v : Nat)
    (hInv : Inv hasher tbl) (hcap : tbl.capacity ≤ 254)
    (hempty : ∃ j, j < tbl.capacity ∧ (bucketAt tbl.buckets j).isEmpty) :
    ∃ r, insertLoop hasher (tbl.capacity + 2) tbl.buckets tbl.capacity v FILLED =
      some r := by
  obtain ⟨hlen, hpos, hsent, hinv4, hinv5⟩ := hInv
  obtain ⟨j, hjlt, hjE⟩ := hempty
  rw [Bucket.isEmpty] at hjE
  have hdibB : ∀ i, i < tbl.capacity → (bucketAt tbl.buckets i).dib ≤ tbl.capacity := by
    intro i hi
    by_cases hf : (bucketAt tbl.buckets i).isFilled
    · exact (hinv4 i hi hf).1
    · rw [Bucket.isFilled] at hf
      push_neg at hf
      rw [hf, EMPTY_eq]
      omega
  obtain ⟨off, hoff, hoffeq⟩ :=
    offset_to_index hpos (Nat.mod_lt _ hpos :
      (hasher v + FILLED) % tbl.capacity < tbl.capacity) hjlt
  obtain ⟨bs', placed, heq, _⟩ :=
    insertLoop_main hpos hcap (tbl.capacity + 2) (tbl.capacity - 1) tbl.buckets v FILLED
      hlen (fun i hi hf => (hinv4 i hi hf).2.1) hdibB
      (fun i hi hf d hd1 hdle => (hinv4 i hi hf).2.2 d (by omega) hd1)
      (fun e he1 helt => by rw [FILLED_eq] at helt; omega)
      (by rw [FILLED_eq]) (by rw [FILLED_eq]; omega) (by omega)
      ⟨off, hoff, by rw [hoffeq]; exact hjE⟩ (by omega)
  exact ⟨(bs', placed), heq⟩

/-- Claim C7 witness: on the concrete invariant-satisfying table `wtbl`
(one empty bucket among many), inserting 7 terminates. -/
theorem claim7_witness :
    ∃ r, insertLoop idHasher (wtbl.capacity + 2) wtbl.buckets wtbl.capacity 7 FILLED =
      some r :=
  claim7_insert_loop_terminates idHasher wtbl 7 (by decide) (by decide)
    ⟨0, by decide, by decide⟩

/-- The seek loop of `ufind`/`erase` keeps its probe displacement at least 1
and its index in range, as long as every resident dib is capped by the
capacity (which itself stays below the 8-bit wrap). -/
theorem seekLoop_range {bs : List Bucket} {cap t : Nat} (hpos : 0 < cap)
    (hcap : cap ≤ 254) (hdibB : ∀ i, i < cap → (bucketAt bs i).dib ≤ cap) :
    ∀ fuel dib idx d i, 1 ≤ dib → dib ≤ cap + 1 → idx < cap →
      seekLoop bs cap t fuel dib idx = some (d, i) → 1 ≤ d ∧ i < cap := by
  intro fuel
  induction fuel with
  | zero => intro dib idx d i _ _ _ h; simp [seekLoop] at h
  | succ fuel ih =>
    intro dib idx d i hdib1 hdibc hidx h
    rw [seekLoop] at h
    split at h
    · next hcond =>
      have hle : dib ≤ cap := by
        have hB := hdibB idx hidx
        rcases hcond with hlt | ⟨heq, _⟩
        · omega
        · omega
      rw [bump8_no_wrap (by omega)] at h
      exact ih (dib + 1) ((idx + 1) % cap) d i (by omega) (by omega)
        (Nat.mod_lt _ hpos) h
    · cases h
      exact ⟨hdib1, hidx⟩

/-- Completeness of the early-exit seek: if `v` is stored at displacement `D`
on its own probe path and every earlier path slot has displacement at least
its probe distance (invariant I1/I2), the seek loop reports a bucket whose
dib matches the probe displacement and whose value is `v`. -/
theorem seekLoop_finds {bs : List Bucket} {cap v : Nat} (hpos : 0 < cap)
    (hcap : cap ≤ 254) {D X : Nat} (hDcap : D ≤ cap)
    (htD : (bucketAt bs ((X + D) % cap)).dib = D)
    (htV : (bucketAt bs ((X + D) % cap)).value = v)
    (hpath : ∀ e, 1 ≤ e → e < D → e ≤ (bucketAt bs ((X + e) % cap)).dib) :
    ∀ fuel d, 1 ≤ d → d ≤ D → D - d < fuel →
      ∃ d' i', seekLoop bs cap v fuel d ((X + d) % cap) = some (d', i') ∧
        d' = (bucketAt bs i').dib ∧ (bucketAt bs i').value = v := by
  intro fuel
  induction fuel with
  | zero => intro d _ _ h; omega
  | succ fuel ih =>
    intro d hd1 hdD hfuel
    by_cases hdeq : d = D
    · subst hdeq
      refine ⟨d, (X + d) % cap, ?_, htD.symm, htV⟩
      rw [seekLoop, if_neg]
      intro hco
      rcases hco with hlt | ⟨_, hne⟩
      · rw [htD] at hlt
        omega
      · exact hne htV.symm
    · have hdlt : d < D := by omega
      have hstep : d ≤ (bucketAt bs ((X + d) % cap)).dib := hpath d hd1 hdlt
      have hbump : bump8 d = d + 1 := bump8_no_wrap (by omega)
      have hnext : ((X + d) % cap + 1) % cap = (X + (d + 1)) % cap := mod_succ_step
      rcases Nat.eq_or_lt_of_le hstep with heq | hlt
      · by_cases hval : v = (bucketAt bs ((X + d) % cap)).value
        · refine ⟨d, (X + d) % cap, ?_, heq, hval.symm⟩
          rw [seekLoop, if_neg]
          intro hco
          rcases hco with hlt' | ⟨_, hne⟩
          · omega
          · exact hne hval
        · obtain ⟨d', i', hrun, hd', hv'⟩ := ih (d + 1) (by omega) (by omega) (by omega)
          refine ⟨d', i', ?_, hd', hv'⟩
          rw [seekLoop, if_pos (Or.inr ⟨heq, hval⟩), hbump, hnext]
          exact hrun
      · obtain ⟨d', i', hrun, hd', hv'⟩ := ih (d + 1) (by omega) (by omega) (by omega)
        refine ⟨d', i', ?_, hd', hv'⟩
        rw [seekLoop, if_pos (Or.inl hlt), hbump, hnext]
        exact hrun

/-- Soundness of `ufind`: a non-end result points at an in-range filled
bucket holding the sought value. -/
theorem ufind_found_slot {hasher : Nat → Nat} {fuel : Nat} {tbl : Table} {v i : Nat}
    (hpos : 0 < tbl.capacity) (hcap : tbl.capacity ≤ 254)
    (hdibB : ∀ j, j < tbl.capacity → (bucketAt tbl.buckets j).dib ≤ tbl.capacity)
    (h : ufind hasher fuel tbl v = some (some i)) :
    i < tbl.capacity ∧ (bucketAt tbl.buckets i).isFilled ∧
      (bucketAt tbl.buckets i).value = v := by
  unfold ufind at h
  cases hseek : seekLoop tbl.buckets tbl.capacity v fuel FILLED
      ((hasher v + FILLED) % tbl.capacity) with
  | none => rw [hseek] at h; exact absurd h (by simp)
  | some p =>
    obtain ⟨d, idx⟩ := p
    rw [hseek] at h
    simp only [Option.some.injEq] at h
    split at h
    · next hcond =>
      have hrange := seekLoop_range hpos hcap hdibB fuel FILLED
        ((hasher v + FILLED) % tbl.capacity) d idx (by rw [FILLED_eq])
        (by rw [FILLED_eq]; omega) (Nat.mod_lt _ hpos) hseek
      cases h
      refine ⟨hrange.2, ?_, hcond.2.symm⟩
      rw [Bucket.isFilled, ← hcond.1, EMPTY_eq]
      omega
    · exact absurd h (by simp)

/-- Claim C6: with the pure, consistent hash/equality of the embedding and a
table satisfying the invariants (capacity within the 8-bit dib range),
`find(v)` reports a non-end iterator — necessarily at a filled bucket whose
value equals `v` — exactly when `v` is a member: the early exit never misses
a stored value. -/
theorem claim6_find_iff_member (hasher : Nat → Nat) (tbl : Table) (v : Nat)
    (hInv : Inv hasher tbl) (hcap : tbl.capacity ≤ 254) :
    (∃ i, ufind hasher (tbl.capacity + 2) tbl v = some (some i)) ↔ hasMember tbl v := by
  obtain ⟨hlen, hpos, hsent, hinv4, hinv5⟩ := hInv
  have hdibB : ∀ i, i < tbl.capacity → (bucketAt tbl.buckets i).dib ≤ tbl.capacity := by
    intro i hi
    by_cases hf : (bucketAt tbl.buckets i).isFilled
    · exact (hinv4 i hi hf).1
    · rw [Bucket.isFilled] at hf
      push_neg at hf
      rw [hf, EMPTY_eq]
      omega
  constructor
  · intro ⟨i, hfound⟩
    obtain ⟨hilt, hif, hiv⟩ := ufind_found_slot hpos hcap hdibB hfound
    exact liveCount_pos_of_slot hilt hif hiv
  · intro hmem
    obtain ⟨iv, hivlt, hivf, hivv⟩ := slot_of_liveCount_pos hmem
    obtain ⟨hDcap, hhome, hpath⟩ := hinv4 iv hivlt hivf
    have hD1 : 1 ≤ (bucketAt tbl.buckets iv).dib := by
      rw [Bucket.isFilled, EMPTY_eq] at hivf
      omega
    have htD : (bucketAt tbl.buckets
        ((hasher v + (bucketAt tbl.buckets iv).dib) % tbl.capacity)).dib =
        (bucketAt tbl.buckets iv).dib := by
      rw [← hivv, ← hhome]
    have htV : (bucketAt tbl.buckets
        ((hasher v + (bucketAt tbl.buckets iv).dib) % tbl.capacity)).value = v := by
      rw [← hivv, ← hhome]
    have hpath' : ∀ e, 1 ≤ e → e < (bucketAt tbl.buckets iv).dib →
        e ≤ (bucketAt tbl.buckets ((hasher v + e) % tbl.capacity)).dib := by
      intro e he1 helt
      have := hpath e (by omega) he1
      rw [hivv] at this
      exact this
    obtain ⟨d', i', hrun, hd', hv'⟩ :=
      seekLoop_finds hpos hcap hDcap htD htV hpath' (tbl.capacity + 2) FILLED
        (by rw [FILLED_eq]) (by rw [FILLED_eq]; omega) (by omega)
    refine ⟨i', ?_⟩
    unfold ufind
    rw [hrun]
    simp only
    rw [if_pos ⟨hd', hv'.symm⟩]

/-- Claim C6 witness: on `wtbl` the stored value 3 is found and the absent
value 7 is a member of neither side of the equivalence. -/
theorem claim6_witness :
    hasMember wtbl 3 ∧ (∃ i, ufind idHasher (wtbl.capacity + 2) wtbl 3 = some (some i)) :=
  ⟨by decide,
    (claim6_find_iff_member idHasher wtbl 3 (by decide) (by decide)).mpr (by decide)⟩

/-- The backward-shift loop of `erase`: starting from a filled bucket, it
preserves the array length, the dib cap and the sentinel, and removes exactly
one copy of the starting bucket's value from the stored multiset. -/
theorem shiftLoop_main {cap : Nat} (hpos : 0 < cap) (hcap2 : 2 ≤ cap) :
    ∀ fuel bs precIdx bs',
      bs.length = cap + 1 → precIdx < cap →
      (∀ j, j < cap → (bucketAt bs j).dib ≤ cap) →
      (bucketAt bs precIdx).isFilled →
      shiftLoop cap fuel bs precIdx ((precIdx + 1) % cap) = some bs' →
      bs'.length = cap + 1 ∧
      (∀ j, j < cap → (bucketAt bs' j).dib ≤ cap) ∧
      bucketAt bs' cap = bucketAt bs cap ∧
      (∀ w, liveCount bs w cap =
        liveCount bs' w cap + if w = (bucketAt bs precIdx).value then 1 else 0) := by
  intro fuel
  induction fuel with
  | zero => intro bs precIdx bs' _ _ _ _ h; simp [shiftLoop] at h
  | succ fuel ih =>
    intro bs precIdx bs' hlen hprec hdibB hpf h
    have hlenp : precIdx < bs.length := by omega
    have hsucclt : (precIdx + 1) % cap < cap := Nat.mod_lt _ hpos
    have hne : (precIdx + 1) % cap ≠ precIdx := by
      intro hc
      rcases Nat.lt_or_ge (precIdx + 1) cap with h1 | h1
      · rw [Nat.mod_eq_of_lt h1] at hc
        omega
      · have hceq : precIdx + 1 = cap := by omega
        rw [hceq, Nat.mod_self] at hc
        omega
    rw [shiftLoop] at h
    split at h
    · next hgt =>
      have hsf : (bucketAt bs ((precIdx + 1) % cap)).isFilled := by
        rw [Bucket.isFilled, EMPTY_eq]
        rw [FILLED_eq] at hgt
        omega
      have hnewf : (Bucket.mk ((bucketAt bs ((precIdx + 1) % cap)).dib - 1)
          (bucketAt bs ((precIdx + 1) % cap)).value).isFilled := by
        rw [Bucket.isFilled, EMPTY_eq]
        rw [FILLED_eq] at hgt
        simp only
        omega
      have hlen0 : (setBucket bs precIdx
          ⟨(bucketAt bs ((precIdx + 1) % cap)).dib - 1,
            (bucketAt bs ((precIdx + 1) % cap)).value⟩).length = cap + 1 := by
        rw [length_setBucket]
        exact hlen
      have hdibB0 : ∀ j, j < cap →
          (bucketAt (setBucket bs precIdx
            ⟨(bucketAt bs ((precIdx + 1) % cap)).dib - 1,
              (bucketAt bs ((precIdx + 1) % cap)).value⟩) j).dib ≤ cap := by
        intro j hj
        by_cases hje : j = precIdx
        · rw [hje, bucketAt_setBucket_self _ hlenp]
          have := hdibB ((precIdx + 1) % cap) hsucclt
          simp only
          omega
        · rw [bucketAt_setBucket_ne _ hje]
          exact hdibB j hj
      have hsf0 : (bucketAt (setBucket bs precIdx
          ⟨(bucketAt bs ((precIdx + 1) % cap)).dib - 1,
            (bucketAt bs ((precIdx + 1) % cap)).value⟩) ((precIdx + 1) % cap)).isFilled := by
        rw [bucketAt_setBucket_ne _ hne]
        exact hsf
      obtain ⟨hlen', hdibB', hsent', hcounts'⟩ :=
        ih _ ((precIdx + 1) % cap) bs' hlen0 hsucclt hdibB0 hsf0 h
      have hval0 : (bucketAt (setBucket bs precIdx
          ⟨(bucketAt bs ((precIdx + 1) % cap)).dib - 1,
            (bucketAt bs ((precIdx + 1) % cap)).value⟩) ((precIdx + 1) % cap)).value =
          (bucketAt bs ((precIdx + 1) % cap)).value := by
        rw [bucketAt_setBucket_ne _ hne]
      refine ⟨hlen', hdibB', ?_, ?_⟩
      · rw [hsent', bucketAt_setBucket_ne _ (by omega)]
      · intro w
        have hset := liveCount_set
          ⟨(bucketAt bs ((precIdx + 1) % cap)).dib - 1,
            (bucketAt bs ((precIdx + 1) % cap)).value⟩ hprec hlenp w
        rw [indicator_and_filled hpf, indicator_and_filled hnewf] at hset
        simp only at hset
        have hc' := hcounts' w
        rw [hval0] at hc'
        by_cases hw1 : w = (bucketAt bs ((precIdx + 1) % cap)).value <;>
          by_cases hw2 : w = (bucketAt bs precIdx).value <;>
          simp only [hw1, hw2, if_pos, if_neg, if_true, if_false] at hset hc' ⊢ <;>
          omega
    · next hstop =>
      cases h
      have hnewe : ¬(Bucket.mk EMPTY (bucketAt bs precIdx).value).isFilled := by
        rw [Bucket.isFilled]
        simp only
        exact fun hc => hc rfl
      refine ⟨by rw [length_setBucket]; exact hlen, ?_, ?_, ?_⟩
      · intro j hj
        by_cases hje : j = precIdx
        · rw [hje, bucketAt_setBucket_self _ hlenp, EMPTY_eq]
          simp only
          omega
        · rw [bucketAt_setBucket_ne _ hje]
          exact hdibB j hj
      · rw [bucketAt_setBucket_ne _ (by omega)]
      · intro w
        have hset := liveCount_set ⟨EMPTY, (bucketAt bs precIdx).value⟩ hprec hlenp w
        rw [indicator_and_filled hpf, indicator_and_empty hnewe] at hset
        by_cases hw : w = (bucketAt bs precIdx).value <;>
          simp only [hw, if_pos, if_neg, if_true, if_false] at hset ⊢ <;>
          omega

/-- Claim C5: on an invariant-satisfying table (capacity within the dib
range), after a successful `erase(v)` every later `find(v)` misses — it can
never report a non-end iterator — and the membership of every other value is
unchanged (backward-shift deletion leaves no tombstone: the removed copy is
the only change to the stored multiset). -/
theorem claim5_erase_removes_and_preserves (hasher : Nat → Nat) (tbl : Table)
    (v : Nat) (t' : Table) (hInv : Inv hasher tbl) (hcap : tbl.capacity ≤ 254)
    (hcap2 : 2 ≤ tbl.capacity)
    (h : erase hasher (tbl.capacity + 2) tbl v = some t') :
    (∀ fuel i, ufind hasher fuel t' v ≠ some (some i)) ∧
    (∀ w, w ≠ v → (hasMember t' w ↔ hasMember tbl w)) := by
  obtain ⟨hlen, hpos, hsent, hinv4, hinv5⟩ := hInv
  have hdibB : ∀ i, i < tbl.capacity → (bucketAt tbl.buckets i).dib ≤ tbl.capacity := by
    intro i hi
    by_cases hf : (bucketAt tbl.buckets i).isFilled
    · exact (hinv4 i hi hf).1
    · rw [Bucket.isFilled] at hf
      push_neg at hf
      rw [hf, EMPTY_eq]
      omega
  unfold erase at h
  split at h
  · exact absurd h (by simp)
  next d precIdx hseek =>
    have hstop := seekLoop_stop hseek
    have hrange := seekLoop_range hpos hcap hdibB (tbl.capacity + 2) FILLED
      ((hasher v + FILLED) % tbl.capacity) d precIdx (by rw [FILLED_eq])
      (by rw [FILLED_eq]; omega) (Nat.mod_lt _ hpos) hseek
    split at h
    · next hdeq =>
      split at h
      · exact absurd h (by simp)
      next bs' hshift =>
        simp only [Option.some.injEq] at h
        subst h
        have hpf : (bucketAt tbl.buckets precIdx).isFilled := by
          rw [Bucket.isFilled, ← hdeq, EMPTY_eq]
          omega
        have hpv : (bucketAt tbl.buckets precIdx).value = v := by
          by_contra hne
          exact hstop (Or.inr ⟨hdeq, fun hc => hne hc.symm⟩)
        obtain ⟨hlen', hdibB', hsent', hcounts⟩ :=
          shiftLoop_main hpos hcap2 (tbl.capacity + 2) tbl.buckets precIdx bs'
            hlen hrange.2 hdibB hpf hshift
        have hone : liveCount tbl.buckets v tbl.capacity = 1 := by
          have hle := liveCount_le_one_of_pairwise hinv5 v
          have hge := liveCount_pos_of_slot hrange.2 hpf hpv
          omega
        have hzero : liveCount bs' v tbl.capacity = 0 := by
          have hc := hcounts v
          rw [hpv, if_pos rfl] at hc
          omega
        constructor
        · intro fuel i hfound
          obtain ⟨hilt, hif, hiv⟩ :=
            @ufind_found_slot hasher fuel
              { buckets := bs', capacity := tbl.capacity, size := tbl.size - 1 } v i
              hpos hcap hdibB' hfound
          exact liveCount_pos_of_slot hilt hif hiv hzero
        · intro w hw
          have hc := hcounts w
          rw [hpv, if_neg hw] at hc
          unfold hasMember
          show liveCount bs' w tbl.capacity ≠ 0 ↔
            liveCount tbl.buckets w tbl.capacity ≠ 0
          omega
    · next hdne =>
      simp only [Option.some.injEq] at h
      subst h
      have hnm : ¬hasMember tbl v := by
        intro hmem
        obtain ⟨iv, hivlt, hivf, hivv⟩ := slot_of_liveCount_pos hmem
        obtain ⟨hDcap, hhome, hpath⟩ := hinv4 iv hivlt hivf
        have htD : (bucketAt tbl.buckets
            ((hasher v + (bucketAt tbl.buckets iv).dib) % tbl.capacity)).dib =
            (bucketAt tbl.buckets iv).dib := by
          rw [← hivv, ← hhome]
        have htV : (bucketAt tbl.buckets
            ((hasher v + (bucketAt tbl.buckets iv).dib) % tbl.capacity)).value = v := by
          rw [← hivv, ← hhome]
        have hD1 : 1 ≤ (bucketAt tbl.buckets iv).dib := by
          rw [Bucket.isFilled, EMPTY_eq] at hivf
          omega
        have hpath' : ∀ e, 1 ≤ e → e < (bucketAt tbl.buckets iv).dib →
            e ≤ (bucketAt tbl.buckets ((hasher v + e) % tbl.capacity)).dib := by
          intro e he1 helt
          have hp := hpath e (by omega) he1
          rw [hivv] at hp
          exact hp
        obtain ⟨d', i', hrun, hd', hv'⟩ :=
          seekLoop_finds hpos hcap hDcap htD htV hpath' (tbl.capacity + 2) FILLED
            (by rw [FILLED_eq]) (by rw [FILLED_eq]; omega) (by omega)
        have hsame := hseek.symm.trans hrun
        simp only [Option.some.injEq, Prod.mk.injEq] at hsame
        exact hdne (hsame.2 ▸ hsame.1 ▸ hd')
      constructor
      · intro fuel i hfound
        obtain ⟨hilt, hif, hiv⟩ := ufind_found_slot hpos hcap hdibB hfound
        exact hnm (liveCount_pos_of_slot hilt hif hiv)
      · intro w _
        exact Iff.rfl

/-- Claim C5 witness: erasing the stored value 3 from `wtbl` succeeds, no
later find of 3 reports a hit, and every other membership is unchanged. -/
theorem claim5_witness :
    ∃ t', erase idHasher (wtbl.capacity + 2) wtbl 3 = some t' ∧
      (∀ fuel i, ufind idHasher fuel t' 3 ≠ some (some i)) ∧
      (∀ w, w ≠ 3 → (hasMember t' w ↔ hasMember wtbl w)) := by
  obtain ⟨t', ht⟩ : ∃ t', erase idHasher (wtbl.capacity + 2) wtbl 3 = some t' :=
    ⟨_, rfl⟩
  obtain ⟨h1, h2⟩ := claim5_erase_removes_and_preserves idHasher wtbl 3 t'
    (by decide) (by decide) (by decide) ht
  exact ⟨t', ht, h1, h2⟩

theorem mkBuckets_length : ∀ n, (mkBuckets n).length = n + 1 := by
  intro n
  induction n with
  | zero => rfl
  | succ n ih => simp [mkBuckets, ih]

theorem bucketAt_mkBuckets_self : ∀ n, bucketAt (mkBuckets n) n = ⟨FILLED, 0⟩ := by
  intro n
  induction n with
  | zero => rfl
  | succ n ih => exact ih

theorem bucketAt_mkBuckets_lt : ∀ n i, i < n → bucketAt (mkBuckets n) i = ⟨EMPTY, 0⟩ := by
  intro n
  induction n with
  | zero => intro i hi; omega
  | succ n ih =>
    intro i hi
    cases i with
    | zero => rfl
    | succ i => exact ih i (by omega)

theorem probeLoop_lt {bs : List Bucket} {cap : Nat} (hpos : 0 < cap) :
    ∀ fuel dib idx d i, idx < cap →
      probeLoop bs cap fuel dib idx = some (d, i) → i < cap := by
  intro fuel
  induction fuel with
  | zero => intro dib idx d i _ h; simp [probeLoop] at h
  | succ fuel ih =>
    intro dib idx d i hidx h
    rw [probeLoop] at h
    split at h
    · exact ih _ _ d i (Nat.mod_lt _ hpos) h
    · cases h; exact hidx

theorem seekLoop_idx_lt {bs : List Bucket} {cap t : Nat} (hpos : 0 < cap) :
    ∀ fuel dib idx d i, idx < cap →
      seekLoop bs cap t fuel dib idx = some (d, i) → i < cap := by
  intro fuel
  induction fuel with
  | zero => intro dib idx d i _ h; simp [seekLoop] at h
  | succ fuel ih =>
    intro dib idx d i hidx h
    rw [seekLoop] at h
    split at h
    · exact ih _ _ d i (Nat.mod_lt _ hpos) h
    · cases h; exact hidx

theorem insertLoop_preserves {hasher : Nat → Nat} {cap : Nat} (hpos : 0 < cap) :
    ∀ fuel bs t dib bs' placed,
      insertLoop hasher fuel bs cap t dib = some (bs', placed) →
      bs'.length = bs.length ∧ bucketAt bs' cap = bucketAt bs cap := by
  intro fuel
  induction fuel with
  | zero => intro bs t dib bs' placed h; simp [insertLoop] at h
  | succ fuel ih =>
    intro bs t dib bs' placed h
    rw [insertLoop] at h
    split at h
    · exact absurd h (by simp)
    · next d idx hprobe =>
      have hidx : idx < cap := probeLoop_lt hpos _ _ _ d idx (Nat.mod_lt _ hpos) hprobe
      simp only at h
      split at h
      · cases h
        exact ⟨rfl, rfl⟩
      · split at h
        · cases h
          exact ⟨length_setBucket bs idx _, bucketAt_setBucket_ne _ (by omega)⟩
        · obtain ⟨hl, hb⟩ := ih _ _ _ bs' placed h
          rw [length_setBucket] at hl
          rw [bucketAt_setBucket_ne _ (by omega : cap ≠ idx)] at hb
          exact ⟨hl, hb⟩

theorem shiftLoop_preserves {cap : Nat} (hpos : 0 < cap) :
    ∀ fuel bs precIdx succIdx bs',
      precIdx < cap → succIdx < cap →
      shiftLoop cap fuel bs precIdx succIdx = some bs' →
      bs'.length = bs.length ∧ bucketAt bs' cap = bucketAt bs cap := by
  intro fuel
  induction fuel with
  | zero => intro bs precIdx succIdx bs' _ _ h; simp [shiftLoop] at h
  | succ fuel ih =>
    intro bs precIdx succIdx bs' hprec hsucc h
    rw [shiftLoop] at h
    split at h
    · obtain ⟨hl, hb⟩ := ih _ _ _ bs' hsucc (Nat.mod_lt _ hpos) h
      rw [length_setBucket] at hl
      rw [bucketAt_setBucket_ne _ (by omega : cap ≠ precIdx)] at hb
      exact ⟨hl, hb⟩
    · cases h
      exact ⟨length_setBucket bs precIdx _, bucketAt_setBucket_ne _ (by omega)⟩

/-- Well-formedness (length, positive capacity, FILLED sentinel) is
preserved by `insert` and by `rehash`, and established by a fresh array. -/
theorem run_preserves (hasher : Nat → Nat) :
    ∀ fuel c t', run hasher fuel c = some t' →
      (match c with
       | Call.ins tbl _ => tbl.buckets.length = tbl.capacity + 1 ∧ 0 < tbl.capacity ∧
           (bucketAt tbl.buckets tbl.capacity).isFilled
       | Call.reh _ _ newCap => 0 < newCap
       | Call.reins _ _ _ tbl => tbl.buckets.length = tbl.capacity + 1 ∧
           0 < tbl.capacity ∧ (bucketAt tbl.buckets tbl.capacity).isFilled) →
      t'.buckets.length = t'.capacity + 1 ∧ 0 < t'.capacity ∧
        (bucketAt t'.buckets t'.capacity).isFilled := by
  intro fuel
  induction fuel with
  | zero => intro c t' h; simp [run] at h
  | succ fuel ih =>
    intro c t' h hc
    cases c with
    | ins tbl t =>
      obtain ⟨hlen, hpos, hsent⟩ := hc
      rw [run] at h
      split at h
      · exact absurd h (by simp)
      · next bs' placed hloop =>
        obtain ⟨hl, hb⟩ := insertLoop_preserves hpos _ _ _ _ bs' placed hloop
        simp only at h
        split at h
        · split at h
          · refine ih _ t' h ?_
            rw [Nat.shiftLeft_eq]
            simp only
            omega
          · cases h
            refine ⟨by rw [hl, hlen], hpos, by rw [hb]; exact hsent⟩
        · cases h
          refine ⟨by rw [hl, hlen], hpos, by rw [hb]; exact hsent⟩
    | reh oldBs oldCap newCap =>
      rw [run] at h
      refine ih _ t' h ⟨mkBuckets_length newCap, hc, ?_⟩
      show (bucketAt (mkBuckets newCap) newCap).isFilled
      rw [bucketAt_mkBuckets_self, Bucket.isFilled, FILLED_eq, EMPTY_eq]
      simp only
      omega
    | reins oldBs oldCap i tbl =>
      rw [run] at h
      split at h
      · split at h
        · split at h
          · exact absurd h (by simp)
          · next tbl2 hins =>
            exact ih _ t' h (ih _ tbl2 hins hc)
        · exact ih _ t' h hc
      · cases h
        exact hc

/-- The iterator increment always reaches a filled bucket at or before the
sentinel: starting strictly below the capacity with enough fuel, it stops at
the first filled bucket after its start. -/
theorem itNext_reaches {bs : List Bucket} {cap : Nat}
    (hsent : (bucketAt bs cap).isFilled) :
    ∀ fuel i, i < cap → cap ≤ i + fuel →
      ∃ k, itNext bs fuel i = some k ∧ k ≤ cap ∧ (bucketAt bs k).isFilled ∧ i < k ∧
        (∀ l, i < l → l < k → ¬(bucketAt bs l).isFilled) := by
  intro fuel
  induction fuel with
  | zero => intro i hi hle; omega
  | succ fuel ih =>
    intro i hi hle
    rw [itNext]
    split
    · next hf =>
      exact ⟨i + 1, rfl, by omega, hf, by omega, fun l h1 h2 => by omega⟩
    · next hnf =>
      have hi1 : i + 1 < cap := by
        rcases Nat.eq_or_lt_of_le (by omega : i + 1 ≤ cap) with heq | hlt
        · rw [heq] at hnf
          exact absurd hsent hnf
        · exact hlt
      obtain ⟨k, hrun, hk, hkf, hik, hfirst⟩ := ih (i + 1) hi1 (by omega)
      refine ⟨k, hrun, hk, hkf, by omega, ?_⟩
      intro l h1 h2
      rcases Nat.eq_or_lt_of_le (by omega : i + 1 ≤ l) with heq | hlt
      · rw [← heq]
        exact hnf
      · exact hfirst l hlt h2

/-- Claim C9: the slot array carries one extra bucket at index `capacity`
that is FILLED from construction (`init`) and after every rehash, holds only
the default-constructed value, and is written by no operation (`insert`,
`erase` and the rehash reinsertion only touch indices below the capacity);
consequently the bounds-check-free iterator increment always stops at or
before this sentinel. -/
theorem claim9_sentinel_and_iterator_stop (hasher : Nat → Nat) (tbl : Table) (v : Nat)
    (hlen : tbl.buckets.length = tbl.capacity + 1) (hpos : 0 < tbl.capacity)
    (hsent : (bucketAt tbl.buckets tbl.capacity).isFilled) :
    (∀ fuel t', insert hasher fuel tbl v = some t' →
      t'.buckets.length = t'.capacity + 1 ∧ 0 < t'.capacity ∧
        (bucketAt t'.buckets t'.capacity).isFilled) ∧
    (∀ fuel t', erase hasher fuel tbl v = some t' →
      t'.buckets.length = t'.capacity + 1 ∧ 0 < t'.capacity ∧
        (bucketAt t'.buckets t'.capacity).isFilled) ∧
    ((clear tbl).buckets.length = (clear tbl).capacity + 1 ∧
      (bucketAt (clear tbl).buckets (clear tbl).capacity).isFilled) ∧
    (∀ fuel oldBs oldCap newCap t', 0 < newCap →
      rehash hasher fuel oldBs oldCap newCap = some t' →
      t'.buckets.length = t'.capacity + 1 ∧ 0 < t'.capacity ∧
        (bucketAt t'.buckets t'.capacity).isFilled) ∧
    (∀ n, (mkBuckets n).length = n + 1 ∧ bucketAt (mkBuckets n) n = ⟨FILLED, 0⟩) ∧
    (∀ i, i < tbl.capacity →
      ∃ k, itNext tbl.buckets tbl.capacity i = some k ∧ k ≤ tbl.capacity ∧
        (bucketAt tbl.buckets k).isFilled) := by
  refine ⟨?_, ?_, ?_, ?_, ?_, ?_⟩
  · intro fuel t' h
    exact run_preserves hasher fuel (Call.ins tbl v) t' h ⟨hlen, hpos, hsent⟩
  · intro fuel t' h
    unfold erase at h
    split at h
    · exact absurd h (by simp)
    next d precIdx hseek =>
      have hpreclt := seekLoop_idx_lt hpos fuel FILLED
        ((hasher v + FILLED) % tbl.capacity) d precIdx (Nat.mod_lt _ hpos) hseek
      split at h
      · split at h
        · exact absurd h (by simp)
        next bs2 hshift =>
          simp only [Option.some.injEq] at h
          subst h
          obtain ⟨hl, hb⟩ := shiftLoop_preserves hpos fuel tbl.buckets precIdx
            ((precIdx + 1) % tbl.capacity) bs2 hpreclt (Nat.mod_lt _ hpos) hshift
          refine ⟨?_, hpos, ?_⟩
          · show bs2.length = tbl.capacity + 1
            rw [hl, hlen]
          · show (bucketAt bs2 tbl.capacity).isFilled
            rw [hb]
            exact hsent
      · simp only [Option.some.injEq] at h
        subst h
        exact ⟨hlen, hpos, hsent⟩
  · constructor
    · show (mkBuckets INIT_SIZE).length = INIT_SIZE + 1
      exact mkBuckets_length INIT_SIZE
    · show (bucketAt (mkBuckets INIT_SIZE) INIT_SIZE).isFilled
      rw [bucketAt_mkBuckets_self, Bucket.isFilled, FILLED_eq, EMPTY_eq]
      simp only
      omega
  · intro fuel oldBs oldCap newCap t' hpos' h
    exact run_preserves hasher fuel (Call.reh oldBs oldCap newCap) t' h hpos'
  · exact fun n => ⟨mkBuckets_length n, bucketAt_mkBuckets_self n⟩
  · intro i hi
    obtain ⟨k, hrun, hk, hkf, _, _⟩ := itNext_reaches hsent tbl.capacity i hi (by omega)
    exact ⟨k, hrun, hk, hkf⟩

/-- Claim C9 witness: on `wtbl`, stepping the iterator from index 0 stops at
a filled bucket at or before the sentinel. -/
theorem claim9_witness :
    ∃ k, itNext wtbl.buckets wtbl.capacity 0 = some k ∧ k ≤ wtbl.capacity ∧
      (bucketAt wtbl.buckets k).isFilled :=
  (claim9_sentinel_and_iterator_stop idHasher wtbl 5 (by decide) (by decide)
    (by decide)).2.2.2.2.2 0 (by decide)

/-- Claim C10: `begin()` is the first filled slot at or after index 0 (the
walk starts at slot 0 only when it is filled, otherwise `operator++` runs
from there), and on a table whose slots are all empty `begin()` equals
`end()` — the sentinel index `capacity` — so iteration visits no values. -/
theorem claim10_begin_is_first_filled (tbl : Table)
    (hlen : tbl.buckets.length = tbl.capacity + 1) (hpos : 0 < tbl.capacity)
    (hsent : (bucketAt tbl.buckets tbl.capacity).isFilled) :
    (∃ k, ubegin tbl tbl.capacity = some k ∧ k ≤ tbl.capacity ∧
      (bucketAt tbl.buckets k).isFilled ∧
      ∀ l, l < k → ¬(bucketAt tbl.buckets l).isFilled) ∧
    ((∀ i, i < tbl.capacity → ¬(bucketAt tbl.buckets i).isFilled) →
      ubegin tbl tbl.capacity = some (uend tbl)) := by
  have hmain : ∃ k, ubegin tbl tbl.capacity = some k ∧ k ≤ tbl.capacity ∧
      (bucketAt tbl.buckets k).isFilled ∧
      ∀ l, l < k → ¬(bucketAt tbl.buckets l).isFilled := by
    unfold ubegin
    split
    · next hf => exact ⟨0, rfl, by omega, hf, fun l hl => by omega⟩
    · next hnf =>
      obtain ⟨k, hrun, hk, hkf, h0k, hfirst⟩ :=
        itNext_reaches hsent tbl.capacity 0 hpos (by omega)
      refine ⟨k, hrun, hk, hkf, ?_⟩
      intro l hl
      rcases Nat.eq_zero_or_pos l with rfl | hlpos
      · exact hnf
      · exact hfirst l (by omega) hl
  refine ⟨hmain, ?_⟩
  intro hall
  obtain ⟨k, hrun, hk, hkf, hfirst⟩ := hmain
  have hkcap : k = tbl.capacity := by
    rcases Nat.eq_or_lt_of_le hk with heq | hlt
    · exact heq
    · exact absurd hkf (hall k hlt)
  rw [hrun, hkcap]
  rfl

/-- Claim C10 witness: on the freshly constructed (all-empty) table,
`begin()` equals `end()`. -/
theorem claim10_witness :
    ubegin emptyTable emptyTable.capacity = some (uend emptyTable) :=
  (claim10_begin_is_first_filled emptyTable (by decide) (by decide) (by decide)).2
    (by decide)

theorem liveCount_mono (bs : List Bucket) (v : Nat) :
    ∀ n m, n ≤ m → liveCount bs v n ≤ liveCount bs v m := by
  intro n m h
  induction m with
  | zero => rw [Nat.le_zero] at h; rw [h]
  | succ m ih =>
    rcases Nat.lt_or_ge n (m + 1) with hlt | hge
    · have := ih (by omega)
      rw [liveCount]
      split <;> omega
    · have hne : n = m + 1 := by omega
      rw [hne]

theorem filledCount_mono (bs : List Bucket) :
    ∀ n m, n ≤ m → filledCount bs n ≤ filledCount bs m := by
  intro n m h
  induction m with
  | zero => rw [Nat.le_zero] at h; rw [h]
  | succ m ih =>
    rcases Nat.lt_or_ge n (m + 1) with hlt | hge
    · have := ih (by omega)
      rw [filledCount]
      split <;> omega
    · have hne : n = m + 1 := by omega
      rw [hne]

theorem liveCount_two_slots {bs : List Bucket} {i j n v : Nat} (hj : j < i) (hi : i < n)
    (hfi : (bucketAt bs i).isFilled) (hvi : (bucketAt bs i).value = v)
    (hfj : (bucketAt bs j).isFilled) (hvj : (bucketAt bs j).value = v) :
    2 ≤ liveCount bs v n := by
  have h1 : liveCount bs v i ≠ 0 := liveCount_pos_of_slot hj hfj hvj
  have h2 : liveCount bs v (i + 1) = liveCount bs v i + 1 := by
    rw [liveCount, if_pos ⟨hfi, hvi⟩]
  have h3 := liveCount_mono bs v (i + 1) n hi
  omega

theorem pairwise_of_counts {bs : List Bucket} {n : Nat}
    (h : ∀ w, liveCount bs w n ≤ 1) :
    ∀ i, i < n → ∀ j, j < i → (bucketAt bs i).isFilled →
      (bucketAt bs j).isFilled → (bucketAt bs i).value ≠ (bucketAt bs j).value := by
  intro i hi j hj hfi hfj heq
  have h2 := liveCount_two_slots hj hi hfi rfl hfj heq.symm
  have h1 := h (bucketAt bs i).value
  omega

theorem filledCount_eq_of_all_filled {bs : List Bucket} :
    ∀ n, (∀ j, j < n → (bucketAt bs j).isFilled) → filledCount bs n = n := by
  intro n
  induction n with
  | zero => intro _; rfl
  | succ n ih =>
    intro h
    rw [filledCount, if_pos (h n (by omega)), ih (fun j hj => h j (by omega))]

theorem exists_empty_of_filledCount_lt {bs : List Bucket} {n : Nat}
    (h : filledCount bs n < n) : ∃ j, j < n ∧ (bucketAt bs j).dib = EMPTY := by
  by_contra hc
  push_neg at hc
  have hall : ∀ j, j < n → (bucketAt bs j).isFilled := by
    intro j hj
    exact hc j hj
  rw [filledCount_eq_of_all_filled n hall] at h
  omega

theorem liveCount_mkBuckets (n v : Nat) : ∀ m, m ≤ n → liveCount (mkBuckets n) v m = 0 := by
  intro m
  induction m with
  | zero => intro _; rfl
  | succ m ih =>
    intro h
    rw [liveCount, ih (by omega), bucketAt_mkBuckets_lt n m (by omega)]
    rw [if_neg]
    intro hco
    exact hco.1 rfl

theorem filledCount_mkBuckets (n : Nat) : ∀ m, m ≤ n → filledCount (mkBuckets n) m = 0 := by
  intro m
  induction m with
  | zero => intro _; rfl
  | succ m ih =>
    intro h
    rw [filledCount, ih (by omega), bucketAt_mkBuckets_lt n m (by omega)]
    rw [if_neg]
    intro hco
    exact hco rfl

theorem insert_step {hasher : Nat → Nat} {tbl : Table} {t : Nat} :
    ∀ fuel, Inv hasher tbl → tbl.capacity ≤ 254 →
    tbl.size = filledCount tbl.buckets tbl.capacity →
    liveCount tbl.buckets t tbl.capacity = 0 →
    (tbl.size + 1) <<< LOAD_FACTOR < (tbl.capacity <<< LOAD_FACTOR) - tbl.capacity →
    tbl.capacity + 2 ≤ fuel →
    ∃ bs', run hasher fuel (.ins tbl t) = some ⟨bs', tbl.capacity, tbl.size + 1⟩ ∧
      Inv hasher ⟨bs', tbl.capacity, tbl.size + 1⟩ ∧
      filledCount bs' tbl.capacity = filledCount tbl.buckets tbl.capacity + 1 ∧
      (∀ w, liveCount bs' w tbl.capacity =
        liveCount tbl.buckets w tbl.capacity + if w = t then 1 else 0) := by
  intro fuel hInv hcap hsz habsent hroom hfuel
  obtain ⟨hlen, hpos, hsent, hinv4, hinv5⟩ := hInv
  have hdibB : ∀ i, i < tbl.capacity → (bucketAt tbl.buckets i).dib ≤ tbl.capacity := by
    intro i hi
    by_cases hf : (bucketAt tbl.buckets i).isFilled
    · exact (hinv4 i hi hf).1
    · rw [Bucket.isFilled] at hf
      push_neg at hf
      rw [hf, EMPTY_eq]
      omega
  have hle1 : ∀ w, liveCount tbl.buckets w tbl.capacity ≤ 1 :=
    liveCount_le_one_of_pairwise hinv5
  have hfclt : filledCount tbl.buckets tbl.capacity < tbl.capacity := by
    rw [Nat.shiftLeft_eq, Nat.shiftLeft_eq] at hroom
    simp only [LOAD_FACTOR] at hroom
    omega
  obtain ⟨j, hjlt, hjE⟩ := exists_empty_of_filledCount_lt hfclt
  obtain ⟨off, hoff, hoffeq⟩ :=
    offset_to_index hpos (Nat.mod_lt _ hpos :
      (hasher t + FILLED) % tbl.capacity < tbl.capacity) hjlt
  cases fuel with
  | zero => omega
  | succ f =>
    obtain ⟨bs', placed, heq, hlen', hhomes', hdibB', hsent', hRH', hfc', hplq, hnplq⟩ :=
      insertLoop_main hpos hcap (f + 1) (tbl.capacity - 1) tbl.buckets t FILLED
        hlen (fun i hi hf => (hinv4 i hi hf).2.1) hdibB
        (fun i hi hf d hd1 hdle => (hinv4 i hi hf).2.2 d (by omega) hd1)
        (fun e he1 helt => by rw [FILLED_eq] at helt; omega)
        (by rw [FILLED_eq]) (by rw [FILLED_eq]; omega) (by omega)
        ⟨off, hoff, by rw [hoffeq]; exact hjE⟩ (by omega)
    cases placed with
    | false =>
      exfalso
      obtain ⟨tf, htf0, htfeq⟩ := hnplq rfl
      have hct := htfeq t
      have hctf := htfeq tf
      have hlef := hle1 tf
      by_cases htt : tf = t
      · rw [htt] at htf0 hctf
        rw [if_pos rfl] at hct hctf
        omega
      · rw [if_neg htt] at hctf
        rw [if_neg (fun hco => htt hco.symm)] at hct
        rw [if_pos rfl] at hctf
        omega
    | true =>
      have hcnt := hplq rfl
      have hle1' : ∀ w, liveCount bs' w tbl.capacity ≤ 1 := by
        intro w
        have hw := hcnt w
        have hw1 := hle1 w
        by_cases hwt : w = t
        · rw [if_pos hwt] at hw
          rw [hwt] at hw ⊢
          omega
        · rw [if_neg hwt] at hw
          omega
      have hfc2 : filledCount bs' tbl.capacity =
          filledCount tbl.buckets tbl.capacity + 1 := by
        rw [hfc']
        simp
      have hnotrig : ¬((tbl.capacity <<< LOAD_FACTOR) - tbl.capacity ≤
          (tbl.size + 1) <<< LOAD_FACTOR) := Nat.not_le.mpr hroom
      refine ⟨bs', ?_, ?_, hfc2, hcnt⟩
      · rw [run, heq]
        show (if (tbl.capacity <<< LOAD_FACTOR) - tbl.capacity ≤
            (tbl.size + 1) <<< LOAD_FACTOR then
          run hasher f (.reh bs' tbl.capacity (tbl.capacity <<< 1))
        else
          some ⟨bs', tbl.capacity, tbl.size + 1⟩) = some ⟨bs', tbl.capacity, tbl.size + 1⟩
        rw [if_neg hnotrig]
      · refine ⟨hlen', hpos, ?_, ?_, ?_⟩
        · show (bucketAt bs' tbl.capacity).isFilled
          rw [hsent']
          exact hsent
        · intro i hi hf
          have hf' : (bucketAt bs' i).isFilled := hf
          refine ⟨hdibB' i hi, hhomes' i hi hf', ?_⟩
          intro d hd1 hd2
          have hd1' : d < (bucketAt bs' i).dib + 1 := hd1
          exact hRH' i hi hf' d hd2 (by omega)
        · exact pairwise_of_counts hle1'

theorem reinsertFrom_spec {hasher : Nat → Nat} {oldBs : List Bucket} {oldCap : Nat}
    (hdistOld : ∀ i, i < oldCap → ∀ j, j < i → (bucketAt oldBs i).isFilled →
      (bucketAt oldBs j).isFilled →
      (bucketAt oldBs i).value ≠ (bucketAt oldBs j).value) :
    ∀ fuel i tbl, Inv hasher tbl → tbl.capacity ≤ 254 →
      tbl.size = filledCount tbl.buckets tbl.capacity →
      filledCount tbl.buckets tbl.capacity = filledCount oldBs i →
      (∀ w, liveCount tbl.buckets w tbl.capacity = liveCount oldBs w i) →
      (filledCount oldBs oldCap) <<< LOAD_FACTOR <
        (tbl.capacity <<< LOAD_FACTOR) - tbl.capacity →
      i ≤ oldCap →
      oldCap - i + tbl.capacity + 3 ≤ fuel →
      ∃ tbl', run hasher fuel (.reins oldBs oldCap i tbl) = some tbl' ∧
        tbl'.capacity = tbl.capacity ∧
        tbl'.size = filledCount oldBs oldCap ∧
        Inv hasher tbl' ∧
        (∀ w, liveCount tbl'.buckets w tbl'.capacity = liveCount oldBs w oldCap) := by
  intro fuel
  induction fuel with
  | zero => intro i tbl _ _ _ _ _ _ _ hfuel; omega
  | succ f ih =>
    intro i tbl hInv hcap hsz hfc hcnt hroom hio hfuel
    rw [run]
    by_cases hilt : i < oldCap
    · rw [if_pos hilt]
      by_cases hf : (bucketAt oldBs i).isFilled
      · rw [if_pos hf]
        have hle1 : liveCount oldBs (bucketAt oldBs i).value oldCap ≤ 1 :=
          liveCount_le_one_of_pairwise hdistOld _
        have hstep : liveCount oldBs (bucketAt oldBs i).value (i + 1) =
            liveCount oldBs (bucketAt oldBs i).value i + 1 := by
          rw [liveCount, if_pos ⟨hf, rfl⟩]
        have hmono := liveCount_mono oldBs (bucketAt oldBs i).value (i + 1) oldCap hilt
        have habs : liveCount tbl.buckets (bucketAt oldBs i).value tbl.capacity = 0 := by
          rw [hcnt]
          omega
        have hstepfc : filledCount oldBs (i + 1) = filledCount oldBs i + 1 := by
          rw [filledCount, if_pos hf]
        have hfcmono := filledCount_mono oldBs (i + 1) oldCap hilt
        have hroome : (tbl.size + 1) <<< LOAD_FACTOR <
            (tbl.capacity <<< LOAD_FACTOR) - tbl.capacity := by
          rw [Nat.shiftLeft_eq]
          rw [Nat.shiftLeft_eq] at hroom
          have h1 : tbl.size + 1 ≤ filledCount oldBs oldCap := by omega
          have h2 : (tbl.size + 1) * 2 ^ LOAD_FACTOR ≤
              filledCount oldBs oldCap * 2 ^ LOAD_FACTOR :=
            Nat.mul_le_mul_right _ h1
          omega
        obtain ⟨bs', hrun, hInv', hfc', hcnt'⟩ :=
          insert_step f hInv hcap hsz habs hroome (by omega)
        rw [hrun]
        have hsz' : tbl.size + 1 = filledCount bs' tbl.capacity := by omega
        have hfcn : filledCount bs' tbl.capacity = filledCount oldBs (i + 1) := by omega
        have hcntn : ∀ w, liveCount bs' w tbl.capacity = liveCount oldBs w (i + 1) := by
          intro w
          rw [hcnt' w, hcnt w, liveCount]
          by_cases hw : w = (bucketAt oldBs i).value
          · rw [if_pos hw, if_pos ⟨hf, hw.symm⟩]
          · rw [if_neg hw, if_neg (fun hco => hw hco.2.symm)]
        have hfueln : oldCap - (i + 1) + tbl.capacity + 3 ≤ f := by omega
        obtain ⟨tbl2, hrun2, hcap2, hsz2, hInv2, hcnt2⟩ :=
          ih (i + 1) ⟨bs', tbl.capacity, tbl.size + 1⟩ hInv' hcap hsz' hfcn hcntn
            hroom (by omega) hfueln
        refine ⟨tbl2, ?_, hcap2, hsz2, hInv2, hcnt2⟩
        exact hrun2
      · rw [if_neg hf]
        have hstepfc : filledCount oldBs (i + 1) = filledCount oldBs i := by
          rw [filledCount, if_neg hf]
          omega
        have hcntn : ∀ w, liveCount tbl.buckets w tbl.capacity =
            liveCount oldBs w (i + 1) := by
          intro w
          rw [hcnt w, liveCount, if_neg (fun hco => hf hco.1)]
          omega
        obtain ⟨tbl2, hrun2, hcap2, hsz2, hInv2, hcnt2⟩ :=
          ih (i + 1) tbl hInv hcap hsz (by omega) hcntn hroom (by omega) (by omega)
        exact ⟨tbl2, hrun2, hcap2, hsz2, hInv2, hcnt2⟩
    · rw [if_neg hilt]
      have hieq : i = oldCap := by omega
      subst hieq
      exact ⟨tbl, rfl, rfl, by omega, hInv, hcnt⟩

/-- Claim C8 (amended): growth is transparent as to the *contents* — under
pairwise-distinct stored values, a positive target capacity below the 8-bit
dib range, a sub-threshold load in the new capacity and enough fuel,
`rehash` succeeds, and the resulting table carries the old number of stored
values as its `_size`, stores exactly the same values (every per-value
occurrence count is preserved) and satisfies the layout invariants I1-I3
again.  The final *layout*, however, is not determined by the invariants
alone: it depends on the order in which `rehash` re-inserts the values
(see the counterexample `claim8_layout_depends_on_reinsertion_order`). -/
theorem claim8_growth_preserves_contents {hasher : Nat → Nat} {fuel : Nat}
    {oldBs : List Bucket} {oldCap newCap : Nat}
    (hdistOld : ∀ i, i < oldCap → ∀ j, j < i → (bucketAt oldBs i).isFilled →
      (bucketAt oldBs j).isFilled →
      (bucketAt oldBs i).value ≠ (bucketAt oldBs j).value)
    (hpos : 0 < newCap) (hcap : newCap ≤ 254)
    (hroom : (filledCount oldBs oldCap) <<< LOAD_FACTOR <
      (newCap <<< LOAD_FACTOR) - newCap)
    (hfuel : oldCap + newCap + 4 ≤ fuel) :
    ∃ tbl', rehash hasher fuel oldBs oldCap newCap = some tbl' ∧
      tbl'.capacity = newCap ∧
      tbl'.size = filledCount oldBs oldCap ∧
      Inv hasher tbl' ∧
      (∀ w, liveCount tbl'.buckets w newCap = liveCount oldBs w oldCap) := by
  cases fuel with
  | zero => exact absurd hfuel (by omega)
  | succ f =>
    have hInv0 : Inv hasher (⟨mkBuckets newCap, newCap, 0⟩ : Table) := by
      refine ⟨mkBuckets_length newCap, hpos, ?_, ?_, ?_⟩
      · show (bucketAt (mkBuckets newCap) newCap).isFilled
        rw [bucketAt_mkBuckets_self]
        rw [Bucket.isFilled, EMPTY_eq, FILLED_eq]
        simp only
        omega
      · intro i hi hfI
        exfalso
        have hb := bucketAt_mkBuckets_lt newCap i hi
        have hfI' : (bucketAt (mkBuckets newCap) i).isFilled := hfI
        rw [Bucket.isFilled, hb] at hfI'
        exact hfI' rfl
      · intro i hi j hj hfI _
        exfalso
        have hb := bucketAt_mkBuckets_lt newCap i hi
        have hfI' : (bucketAt (mkBuckets newCap) i).isFilled := hfI
        rw [Bucket.isFilled, hb] at hfI'
        exact hfI' rfl
    obtain ⟨tbl', hrun, hcap', hsz', hInv', hcnt'⟩ :=
      reinsertFrom_spec hdistOld f 0 ⟨mkBuckets newCap, newCap, 0⟩ hInv0 hcap
        ((filledCount_mkBuckets newCap newCap (Nat.le_refl _)).symm)
        (filledCount_mkBuckets newCap newCap (Nat.le_refl _))
        (fun w => liveCount_mkBuckets newCap w newCap (Nat.le_refl _))
        hroom (Nat.zero_le _) (show oldCap - 0 + newCap + 3 ≤ f by omega)
    have hc2 : tbl'.capacity = newCap := hcap'
    refine ⟨tbl', ?_, hc2, hsz', hInv', ?_⟩
    · rw [rehash, run]
      exact hrun
    · intro w
      rw [← hc2]
      exact hcnt' w

/-- Claim C8 witness: rehashing the concrete bucket array of `wtbl` (one
stored value) into a fresh capacity-16 array succeeds and preserves the
size, the stored contents and the invariants. -/
theorem claim8_witness :
    ∃ tbl', rehash idHasher 36 wtbl.buckets 16 16 = some tbl' ∧
      tbl'.capacity = 16 ∧
      tbl'.size = filledCount wtbl.buckets 16 ∧
      Inv idHasher tbl' ∧
      (∀ w, liveCount tbl'.buckets w 16 = liveCount wtbl.buckets w 16) :=
  claim8_growth_preserves_contents (by decide) (by decide) (by decide) (by decide)
    (by decide)

end RobinHood
